import Mathlib

/-!
The decimal formatter of `example_matfloat` (`putlong`, `putfloat`) and its
result checker (`check_results`).

Source: `sw/applications/example_matfloat/main.c`.

Modelling conventions.

* A `float` is a binary32 number, held as the rational it denotes. Every
  `float` operation of the source (`x - (long)x`, `f *= 10`, `f += 1`,
  `x += 1`, the conversion of a `long` to `float`, the subtraction in
  `check_results`) is the exact operation followed by `f32`, rounding to the
  nearest binary32 number, ties to even. Comparisons are exact.
* A result whose magnitude is beyond the largest finite binary32 number is
  infinite; it is held as `2^128` (or `-2^128`), which no finite `float` equals
  and which the operations used here (`* 10`, `+ 1`, comparisons with finite
  constants) treat as they treat infinity.
* `long` has the range `-LONG_MAX - 1 .. LONG_MAX`; `LONG_MAX` is a parameter
  (`2^31 - 1` on the RV32 target, `2^63 - 1` on an LP64 host; always below
  `2^128`). The cast `(long)q` truncates toward zero and is undefined when the
  truncated value is out of range. `/` and `%` on `long` are C's truncating
  division and remainder. Inside `putlong` values only shrink, so `long` is an
  unbounded integer there.
* `putchar` appends to the output: a function that prints returns the list of
  characters it printed, in order.
* Undefined behaviour (an out-of-range cast, a zero loop entered with a negative
  counter) has no result: the functions return an `Option`.
* An array of `float` is the function from an index to the value stored there.
-/

namespace Matfloat

/-! ## binary32 arithmetic -/

/-- Truncation toward zero. -/
def trunc (q : ℚ) : Int := if 0 ≤ q then ⌊q⌋ else ⌈q⌉

/-- For `n ≥ 1` and `fuel ≥ n`, the position of the leading bit of `n`. -/
def log2n : Nat → Nat → Nat
  | 0, _ => 0
  | fuel + 1, n => if n < 2 then 0 else log2n fuel (n / 2) + 1

/-- For `q ≠ 0`, the exponent `e` with `2^e ≤ |q| < 2^(e+1)`. -/
def ilog2 (q : ℚ) : Int :=
  if (2 : ℚ) ^ ((log2n q.num.natAbs q.num.natAbs : Int) - (log2n q.den q.den : Int)) ≤ |q| then
    (log2n q.num.natAbs q.num.natAbs : Int) - (log2n q.den q.den : Int)
  else (log2n q.num.natAbs q.num.natAbs : Int) - (log2n q.den q.den : Int) - 1

/-- Rounding to the nearest integer, ties to even. -/
def rne (t : ℚ) : Int :=
  if t - ⌊t⌋ < 1 / 2 then ⌊t⌋
  else if 1 / 2 < t - ⌊t⌋ then ⌊t⌋ + 1
  else if ⌊t⌋ % 2 = 0 then ⌊t⌋ else ⌊t⌋ + 1

/-- The spacing of binary32 numbers around `q ≠ 0`: 24 significant bits, least
exponent `-126` (below it the numbers are subnormal, spaced `2^-149`). -/
def ulp (q : ℚ) : ℚ := 2 ^ (max (ilog2 q) (-126) - 23)

/-- Rounding of a rational to binary32, to nearest, ties to even. A result of
magnitude `2^128` or more is infinite and held as `±2^128`. -/
def f32 (q : ℚ) : ℚ :=
  if q = 0 then 0
  else if 2 ^ 128 ≤ |(rne (q / ulp q) : ℚ) * ulp q| then (if 0 < q then 2 ^ 128 else -2 ^ 128)
  else (rne (q / ulp q) : ℚ) * ulp q

/-! ## Embedding of the source -/

/-- The cast `(long)q`: truncation toward zero; undefined (`none`) when the
truncated value is not in the range of `long`. -/
def toLong (LONG_MAX : Int) (q : ℚ) : Option Int :=
  if -LONG_MAX - 1 ≤ trunc q ∧ trunc q ≤ LONG_MAX then some (trunc q) else none

/-- `LONG_MAX` where `long` has 32 bits (the RV32 target). -/
def LONG_MAX_32 : Int := 2 ^ 31 - 1

/-- `LONG_MAX` where `long` has 64 bits. -/
def LONG_MAX_64 : Int := 2 ^ 63 - 1

/-- The character `'0' + v` (the code of `'0'` is 48). -/
def digitChar (v : Int) : Char := Char.ofNat (48 + v).toNat

/-- The `do ... while (i > 0)` loop of `putlong`. `int_str` holds the characters
stored so far, `int_str[0]` first (its length is `len`). One pass stores
`'0' + i % 10` at `int_str[len]`, increments `len`, and divides `i` by 10. -/
def putlong_loop (i : Int) (int_str : List Char) : List Char :=
  if _h : Int.tdiv i 10 > 0 then
    putlong_loop (Int.tdiv i 10) (int_str ++ [digitChar (Int.tmod i 10)])
  else
    int_str ++ [digitChar (Int.tmod i 10)]
termination_by i.toNat
decreasing_by
  have hi : 0 < i := by
    by_contra hc
    obtain ⟨n, rfl⟩ := Int.exists_eq_neg_ofNat (not_lt.mp hc)
    rw [Int.neg_tdiv] at _h
    have := Int.tdiv_nonneg (Int.ofNat_nonneg n) (by norm_num : (0 : Int) ≤ 10)
    omega
  rw [Int.tdiv_eq_ediv (le_of_lt hi) (by norm_num)] at _h ⊢
  omega

/-- `putlong(i)`: fill `int_str` with the loop, then print `int_str[len-1]`
down to `int_str[0]`. -/
def putlong (i : Int) : List Char := (putlong_loop i []).reverse

/-- The variables of `putfloat` that its extraction loop updates. -/
structure Extracted where
  f : ℚ
  initial_zeros : Int
  fraction_overflow : Bool
deriving DecidableEq

/-- One pass of `for (int j = 0; j < p; j++)` in `putfloat`: `f *= 10` in
binary32, the count of initial zeros, and
`if (fraction_overflow && (long)f % 10 < 9) fraction_overflow = 0`, whose cast
is evaluated only while the flag is set. -/
def extract_step (LONG_MAX : Int) (p : Int) (s : Extracted) (j : Nat) : Option Extracted :=
  if s.fraction_overflow = true then
    (toLong LONG_MAX (f32 (s.f * 10))).map fun (l : Int) =>
      { f := f32 (s.f * 10),
        initial_zeros :=
          if f32 (s.f * 10) < 1 then
            if ¬ ((j : Int) = p - 1 ∧ f32 (s.f * 10) ≥ 1 / 2) then s.initial_zeros + 1
            else s.initial_zeros
          else s.initial_zeros,
        fraction_overflow := if Int.tmod l 10 < 9 then false else true }
  else
    some
      { f := f32 (s.f * 10),
        initial_zeros :=
          if f32 (s.f * 10) < 1 then
            if ¬ ((j : Int) = p - 1 ∧ f32 (s.f * 10) ≥ 1 / 2) then s.initial_zeros + 1
            else s.initial_zeros
          else s.initial_zeros,
        fraction_overflow := false }

/-- The variables of the extraction loop after its first `k` passes, started
with `initial_zeros = 0` and `fraction_overflow = 1`. -/
def extract_upto (LONG_MAX : Int) (f : ℚ) (p : Int) (k : Nat) : Option Extracted :=
  (List.range k).foldlM (extract_step LONG_MAX p)
    { f := f, initial_zeros := 0, fraction_overflow := true }

/-- The extraction loop of `putfloat`; `j` runs over `0, 1, ..., p - 1`. -/
def extract (LONG_MAX : Int) (f : ℚ) (p : Int) : Option Extracted :=
  extract_upto LONG_MAX f p p.toNat

/-- The variables of `putfloat` after the block "Round up if necessary". -/
structure Rounded where
  x : ℚ
  f : ℚ
  initial_zeros : Int
deriving DecidableEq

/-- The block "Round up if necessary" of `putfloat`. The test is
`(f - (long)f) >= 0.5f`: the cast, its conversion back to `float`, and a
binary32 subtraction. -/
def round_up (LONG_MAX : Int) (x : ℚ) (p : Int) (s : Extracted) : Option Rounded :=
  (toLong LONG_MAX s.f).map fun (l : Int) =>
    if f32 (s.f - f32 (l : ℚ)) ≥ 1 / 2 then
      if s.fraction_overflow = false then
        if f32 (s.f + 1) ≥ 10 ∧ s.initial_zeros > 0 then
          { x := x, f := f32 (s.f + 1), initial_zeros := s.initial_zeros - 1 }
        else
          { x := x, f := f32 (s.f + 1), initial_zeros := s.initial_zeros }
      else
        { x := f32 (x + 1), f := 0, initial_zeros := p - 1 }
    else
      { x := x, f := s.f, initial_zeros := s.initial_zeros }

/-- The loop `while (initial_zeros--) putchar('0')`. From a non-negative counter
it prints that many zeros. From a negative counter the test never sees zero
before the decrement overflows `int`: no defined result. -/
def put_zeros (initial_zeros : Int) : Option (List Char) :=
  if initial_zeros < 0 then none else some (List.replicate initial_zeros.toNat '0')

/-- The variables of `putfloat` after its extraction loop, for a non-negative
`x`: `f` starts as `x - (long)x`. -/
def extracted (LONG_MAX : Int) (x : ℚ) (p : Int) : Option Extracted :=
  (toLong LONG_MAX x).bind fun (l : Int) => extract LONG_MAX (f32 (x - f32 (l : ℚ))) p

/-- The variables of `putfloat` when it starts printing. -/
def rounded (LONG_MAX : Int) (x : ℚ) (p : Int) : Option Rounded :=
  (extracted LONG_MAX x p).bind fun s => round_up LONG_MAX x p s

/-- The part of `putfloat` after the sign has been handled (`x` is the negated
value when the input was negative). -/
def putfloat_abs (LONG_MAX : Int) (x : ℚ) (p : Int) : Option (List Char) :=
  (rounded LONG_MAX x p).bind fun r =>
    (toLong LONG_MAX r.x).bind fun (ix : Int) =>
      (put_zeros r.initial_zeros).bind fun zeros =>
        (if r.f > 1 then (toLong LONG_MAX r.f).map putlong else some []).map fun digits =>
          putlong ix ++ ['.'] ++ zeros ++ digits

/-- `putfloat(x, p)` for a binary32 `x`: the characters printed, or `none` when
the run has no defined result. -/
def putfloat (LONG_MAX : Int) (x : ℚ) (p : Int) : Option (List Char) :=
  if x < 0 then (putfloat_abs LONG_MAX (-x) p).map (fun out => '-' :: out)
  else putfloat_abs LONG_MAX x p

/-- The literal `0.0001f`. -/
def tolerance : ℚ := f32 (1 / 10000)

/-- The `for (i = 0; i < N; i++)` loop of `check_results`, at index `i` with
`n = N - i` indices left and the current value of `err`. The difference is a
binary32 subtraction; `fabs` and the comparison are exact. A mismatch
increments the `uint32_t` counter and leaves the loop (`break`); the value
returned is the value of `err` after the loop. -/
def check_results_loop (computed expected : Nat → ℚ) : Nat → Nat → Nat → Nat
  | 0, _, err => err
  | n + 1, i, err =>
    if |f32 (computed i - expected i)| > tolerance then (err + 1) % 4294967296
    else check_results_loop computed expected n (i + 1) err

/-- `check_results(computed, expected, N)`: the loop from `i = 0` with `err = 0`;
it has `N` indices to visit (none when `N ≤ 0`). -/
def check_results (computed expected : Nat → ℚ) (N : Int) : Nat :=
  check_results_loop computed expected N.toNat 0 0

/-! ## The algorithm on real numbers

The steps of `putfloat` as the specification states them (section 4.1): on the
real number `x`, with no rounding and no range limit. These definitions are not
the program; they say what the digits of `x` give. The program agrees with them
on the runs in which no operation rounds (`putfloat_abs_eq_exact`). -/

/-- One pass of the extraction loop, exact. -/
def extract_step_exact (p : Int) (s : Extracted) (j : Nat) : Extracted :=
  let f := s.f * 10
  let initial_zeros :=
    if f < 1 then
      if ¬ ((j : Int) = p - 1 ∧ f ≥ 1 / 2) then s.initial_zeros + 1 else s.initial_zeros
    else s.initial_zeros
  let fraction_overflow :=
    if s.fraction_overflow = true ∧ Int.tmod (trunc f) 10 < 9 then false
    else s.fraction_overflow
  { f := f, initial_zeros := initial_zeros, fraction_overflow := fraction_overflow }

/-- The extraction loop, exact. -/
def extract_exact (f : ℚ) (p : Int) : Extracted :=
  (List.range p.toNat).foldl (extract_step_exact p) { f := f, initial_zeros := 0, fraction_overflow := true }

/-- The first `k` passes of the extraction loop, exact. -/
def extract_upto_exact (f : ℚ) (p : Int) (k : Nat) : Extracted :=
  (List.range k).foldl (extract_step_exact p) { f := f, initial_zeros := 0, fraction_overflow := true }

/-- The block "Round up if necessary", exact. -/
def round_up_exact (x : ℚ) (p : Int) (s : Extracted) : Rounded :=
  if s.f - trunc s.f ≥ 1 / 2 then
    if s.fraction_overflow = false then
      if s.f + 1 ≥ 10 ∧ s.initial_zeros > 0 then
        { x := x, f := s.f + 1, initial_zeros := s.initial_zeros - 1 }
      else
        { x := x, f := s.f + 1, initial_zeros := s.initial_zeros }
    else
      { x := x + 1, f := 0, initial_zeros := p - 1 }
  else
    { x := x, f := s.f, initial_zeros := s.initial_zeros }

/-- The part of `putfloat` after the sign, exact. -/
def putfloat_abs_exact (x : ℚ) (p : Int) : Option (List Char) :=
  let r := round_up_exact x p (extract_exact (x - trunc x) p)
  (put_zeros r.initial_zeros).map fun zeros =>
    putlong (trunc r.x) ++ ['.'] ++ zeros ++ (if r.f > 1 then putlong (trunc r.f) else [])

/-- No operation of the extraction of `putfloat(x, p)` rounds and no cast in it
is out of range: `x`, its integer part, its fraction and each product
`frac x * 10^j` are binary32 numbers (`f32` leaves them unchanged), and the
integer parts fit in `long`. -/
def exact_extraction (LONG_MAX : Int) (x : ℚ) (p : Int) : Prop :=
  f32 x = x ∧ ⌊x⌋ ≤ LONG_MAX ∧ ⌊Int.fract x * 10 ^ p.toNat⌋ ≤ LONG_MAX ∧
  f32 (⌊x⌋ : ℚ) = ⌊x⌋ ∧ f32 (Int.fract x) = Int.fract x ∧
  ∀ j : Nat, j < p.toNat → f32 (Int.fract x * 10 ^ (j + 1)) = Int.fract x * 10 ^ (j + 1)

instance (LONG_MAX : Int) (x : ℚ) (p : Int) : Decidable (exact_extraction LONG_MAX x p) := by
  unfold exact_extraction
  infer_instance

/-- In addition to `exact_extraction`, the rounding test `f - (long)f` of
`putfloat(x, p)` is exact and the integer parts stay in range after a round-up. -/
def exact_run (LONG_MAX : Int) (x : ℚ) (p : Int) : Prop :=
  exact_extraction LONG_MAX x p ∧
  ⌊x⌋ < LONG_MAX ∧ ⌊Int.fract x * 10 ^ p.toNat⌋ < LONG_MAX ∧
  f32 (⌊Int.fract x * 10 ^ p.toNat⌋ : ℚ) = ⌊Int.fract x * 10 ^ p.toNat⌋ ∧
  f32 (Int.fract (Int.fract x * 10 ^ p.toNat)) = Int.fract (Int.fract x * 10 ^ p.toNat)

instance (LONG_MAX : Int) (x : ℚ) (p : Int) : Decidable (exact_run LONG_MAX x p) := by
  unfold exact_run
  infer_instance

/-- The binary32 value of `f` after `k` passes of the extraction loop started
at `f`: each pass is `f *= 10`. -/
def accumulator (f : ℚ) : Nat → ℚ
  | 0 => f
  | k + 1 => f32 (accumulator f k * 10)

/-! ## Reference notions used to state the properties -/

/-- The standard base-10 numeral of `n`, most significant digit first. -/
def decimal (n : Nat) : List Char :=
  if n = 0 then ['0'] else ((Nat.digits 10 n).map fun (d : Nat) => digitChar (d : Int)).reverse

/-- The numeral of `n` written with exactly `p` digits, zero-padded on the left
(the last `p` digits of `n`). -/
def padded : Nat → Nat → List Char
  | 0, _ => []
  | p + 1, n => padded p (n / 10) ++ [digitChar ((n % 10 : Nat) : Int)]

/-- The value of a digit character. -/
def digitValue (c : Char) : Nat := c.toNat - 48

/-- Reads a list of digit characters as a base-10 natural number. -/
def readNat (cs : List Char) : Nat := cs.foldl (fun acc c => acc * 10 + digitValue c) 0

/-- Reads `digits . digits` as a decimal number. -/
def readDecimal (cs : List Char) : ℚ :=
  let ip := cs.takeWhile (fun c => c ≠ '.')
  let fp := (cs.dropWhile (fun c => c ≠ '.')).drop 1
  (readNat ip : ℚ) + (readNat fp : ℚ) / 10 ^ fp.length

/-- The standard round-half-up rendering of `x ≥ 0` to `p` fractional digits:
the numeral of the integer part of `⌊x * 10^p + 1/2⌋ / 10^p`, a point, and the
`p` fractional digits. -/
def stdRender (x : ℚ) (p : Nat) : List Char :=
  let m := (⌊x * 10 ^ p + 1 / 2⌋).toNat
  decimal (m / 10 ^ p) ++ ['.'] ++ padded p (m % 10 ^ p)

/-! ## `putlong` prints the standard numeral -/

theorem tdiv_natCast_ten (n : Nat) : Int.tdiv (n : Int) 10 = ((n / 10 : Nat) : Int) := by
  rw [Int.tdiv_eq_ediv (Int.ofNat_nonneg n) (by norm_num)]
  norm_cast

theorem tmod_natCast_ten (n : Nat) : Int.tmod (n : Int) 10 = ((n % 10 : Nat) : Int) := by
  rw [Int.tmod_eq_emod (Int.ofNat_nonneg n) (by norm_num)]
  norm_cast

theorem putlong_loop_natCast (n : Nat) (int_str : List Char) :
    putlong_loop (n : Int) int_str =
      int_str ++ (if n = 0 then ['0'] else (Nat.digits 10 n).map fun (d : Nat) => digitChar (d : Int)) := by
  induction n using Nat.strong_induction_on generalizing int_str with
  | _ n ih =>
    rw [putlong_loop]
    simp only [tdiv_natCast_ten, tmod_natCast_ten]
    by_cases hq : n / 10 = 0
    · have hlt : n < 10 := by omega
      have hmod : n % 10 = n := Nat.mod_eq_of_lt hlt
      simp only [hq, hmod]
      by_cases hn : n = 0
      · subst hn; simp [digitChar]
      · have hpos : 0 < n := Nat.pos_of_ne_zero hn
        rw [Nat.digits_def' (by norm_num) hpos]
        simp [hn, hq, hmod]
    · have hpos : 0 < n := by omega
      have hn : n ≠ 0 := by omega
      have hq' : ((n / 10 : Nat) : Int) > 0 := by omega
      rw [dif_pos hq', ih (n / 10) (by omega)]
      rw [Nat.digits_def' (by norm_num) hpos]
      simp [hn, hq]

theorem putlong_natCast (n : Nat) : putlong (n : Int) = decimal n := by
  unfold putlong decimal
  rw [putlong_loop_natCast]
  by_cases hn : n = 0 <;> simp [hn]

theorem putlong_of_nonneg (i : Int) (h : 0 ≤ i) : putlong i = decimal i.toNat := by
  obtain ⟨n, rfl⟩ := Int.eq_ofNat_of_zero_le h
  simpa using putlong_natCast n

theorem digitValue_digitChar (d : Nat) (h : d < 10) : digitValue (digitChar (d : Int)) = d := by
  interval_cases d <;> decide

theorem digitChar_isDigit (d : Nat) (h : d < 10) : (digitChar (d : Int)).isDigit = true := by
  interval_cases d <;> decide

theorem digitChar_eq_zero_iff (d : Nat) (h : d < 10) : digitChar (d : Int) = '0' ↔ d = 0 := by
  interval_cases d <;> decide

theorem readNat_digits_reverse (l : List Nat) (h : ∀ d ∈ l, d < 10) :
    readNat ((l.map fun (d : Nat) => digitChar (d : Int)).reverse) = Nat.ofDigits 10 l := by
  unfold readNat
  induction l with
  | nil => simp
  | cons d l ih =>
    have hd : d < 10 := h d (List.mem_cons_self _ _)
    have hl : ∀ e ∈ l, e < 10 := fun e he => h e (List.mem_cons_of_mem _ he)
    simp only [List.map_cons, List.reverse_cons, List.foldl_append, List.foldl_cons,
      List.foldl_nil, Nat.ofDigits_cons, ih hl, digitValue_digitChar d hd]
    ring

theorem readNat_decimal (n : Nat) : readNat (decimal n) = n := by
  unfold decimal
  by_cases hn : n = 0
  · subst hn; decide
  · rw [if_neg hn, readNat_digits_reverse _ (fun d hd => Nat.digits_lt_base (by norm_num) hd)]
    exact Nat.ofDigits_digits 10 n

theorem decimal_isDigit (n : Nat) : ∀ c ∈ decimal n, c.isDigit = true := by
  intro c hc
  unfold decimal at hc
  by_cases hn : n = 0
  · subst hn; simp at hc; subst hc; decide
  · rw [if_neg hn] at hc
    simp only [List.mem_reverse, List.mem_map] at hc
    obtain ⟨d, hd, rfl⟩ := hc
    exact digitChar_isDigit d (Nat.digits_lt_base (by norm_num) hd)

theorem decimal_head_ne_zero (n : Nat) (hn : n ≠ 0) : (decimal n).head? ≠ some '0' := by
  unfold decimal
  rw [if_neg hn, List.head?_reverse, List.getLast?_map]
  have hne : Nat.digits 10 n ≠ [] := Nat.digits_ne_nil_iff_ne_zero.mpr hn
  rw [List.getLast?_eq_getLast _ hne]
  simp only [Option.map_some', ne_eq, Option.some.injEq]
  intro hz
  have hlt : (Nat.digits 10 n).getLast hne < 10 :=
    Nat.digits_lt_base (by norm_num) (List.getLast_mem hne)
  exact Nat.getLast_digit_ne_zero 10 hn ((digitChar_eq_zero_iff _ hlt).mp hz)

/-! ## Numerals: appending a digit, padding -/

theorem decimal_of_lt_ten (n : Nat) (h : n < 10) : decimal n = [digitChar (n : Int)] := by
  unfold decimal
  by_cases hn : n = 0
  · subst hn; rfl
  · rw [if_neg hn, Nat.digits_of_lt 10 n hn h]
    rfl

theorem decimal_step (n : Nat) (h : n / 10 ≠ 0) :
    decimal n = decimal (n / 10) ++ [digitChar ((n % 10 : Nat) : Int)] := by
  have hn : n ≠ 0 := by omega
  unfold decimal
  rw [if_neg hn, if_neg h, Nat.digits_def' (by norm_num) (Nat.pos_of_ne_zero hn)]
  simp

theorem padded_zero (p : Nat) : padded p 0 = List.replicate p '0' := by
  induction p with
  | zero => rfl
  | succ p ih =>
    simp only [padded, Nat.zero_div, ih]
    rw [List.replicate_succ']
    rfl

theorem padded_eq (p n : Nat) (hn : n ≠ 0) (z : Nat) (hz : z + (decimal n).length = p) :
    padded p n = List.replicate z '0' ++ decimal n := by
  induction p generalizing n z with
  | zero =>
    have : (decimal n).length = 0 := by omega
    have hnil : decimal n = [] := List.length_eq_zero.mp this
    have hhead := decimal_head_ne_zero n hn
    have hz0 : z = 0 := by omega
    simp [padded, hnil, hz0]
  | succ p ih =>
    by_cases hq : n / 10 = 0
    · have hlt : n < 10 := by omega
      have hmod : n % 10 = n := Nat.mod_eq_of_lt hlt
      rw [decimal_of_lt_ten n hlt] at hz ⊢
      simp only [List.length_singleton] at hz
      have hzp : z = p := by omega
      simp only [padded, hq, hmod, padded_zero, hzp]
    · rw [decimal_step n hq] at hz ⊢
      simp only [List.length_append, List.length_singleton] at hz
      simp only [padded]
      rw [ih (n / 10) hq z (by omega), List.append_assoc]

/-! ## Truncation of non-negative values -/

theorem trunc_of_nonneg (q : ℚ) (h : 0 ≤ q) : trunc q = ⌊q⌋ := by
  unfold trunc
  rw [if_pos h]

theorem trunc_eq_natFloor (q : ℚ) (h : 0 ≤ q) : trunc q = (⌊q⌋₊ : Int) := by
  rw [trunc_of_nonneg q h, Int.natCast_floor_eq_floor h]

theorem sub_trunc_eq_fract (x : ℚ) (h : 0 ≤ x) : x - trunc x = Int.fract x := by
  rw [trunc_of_nonneg x h, Int.self_sub_floor]

theorem natFloor_mul_ten_div (F : ℚ) : ⌊F * 10⌋₊ / 10 = ⌊F⌋₊ := by
  have h := Nat.floor_div_nat (F * 10) 10
  rw [← h]
  congr 1
  push_cast
  ring

/-! ## The extraction loop in exact arithmetic -/

theorem extract_exact_eq_upto (f : ℚ) (p : Int) : extract_exact f p = extract_upto_exact f p p.toNat := rfl

theorem extract_upto_exact_zero (f : ℚ) (p : Int) :
    extract_upto_exact f p 0 = { f := f, initial_zeros := 0, fraction_overflow := true } := rfl

theorem extract_upto_exact_succ (f : ℚ) (p : Int) (k : Nat) :
    extract_upto_exact f p (k + 1) = extract_step_exact p (extract_upto_exact f p k) k := by
  unfold extract_upto_exact
  rw [List.range_succ, List.foldl_append]
  rfl

theorem extract_upto_exact_f (f : ℚ) (p : Int) (k : Nat) : (extract_upto_exact f p k).f = f * 10 ^ k := by
  induction k with
  | zero => simp [extract_upto_exact_zero]
  | succ k ih =>
    rw [extract_upto_exact_succ]
    simp only [extract_step_exact, ih]
    ring

theorem extract_upto_exact_overflow (f : ℚ) (hf : 0 ≤ f) (p : Int) (k : Nat) :
    (extract_upto_exact f p k).fraction_overflow = true ↔
      ∀ j : Nat, j < k → ⌊f * 10 ^ (j + 1)⌋ % 10 = 9 := by
  induction k with
  | zero => simp [extract_upto_exact_zero]
  | succ k ih =>
    rw [extract_upto_exact_succ]
    have hF : 0 ≤ f * 10 ^ (k + 1) := by positivity
    have hfl : (0 : Int) ≤ ⌊f * 10 ^ (k + 1)⌋ := Int.floor_nonneg.mpr hF
    have hstep : (extract_upto_exact f p k).f * 10 = f * 10 ^ (k + 1) := by
      rw [extract_upto_exact_f]; ring
    simp only [extract_step_exact, hstep, trunc_of_nonneg _ hF,
      Int.tmod_eq_emod hfl (by norm_num : (0 : Int) ≤ 10)]
    constructor
    · intro h j hj
      by_cases hc : (extract_upto_exact f p k).fraction_overflow = true ∧ ⌊f * 10 ^ (k + 1)⌋ % 10 < 9
      · rw [if_pos hc] at h; exact absurd h (by simp)
      · rw [if_neg hc] at h
        rcases Nat.lt_succ_iff_lt_or_eq.mp hj with hlt | heq
        · exact ih.mp h j hlt
        · subst heq
          have : ¬ ⌊f * 10 ^ (j + 1)⌋ % 10 < 9 := fun hlt => hc ⟨h, hlt⟩
          omega
    · intro h
      have hk := h k (Nat.lt_succ_self k)
      have hprev := ih.mpr (fun j hj => h j (Nat.lt_succ_of_lt hj))
      have hc : ¬ ((extract_upto_exact f p k).fraction_overflow = true ∧ ⌊f * 10 ^ (k + 1)⌋ % 10 < 9) := by
        intro hc; omega
      rw [if_neg hc]; exact hprev

theorem extract_upto_exact_zeros_nonneg (f : ℚ) (p : Int) (k : Nat) :
    0 ≤ (extract_upto_exact f p k).initial_zeros := by
  induction k with
  | zero => simp [extract_upto_exact_zero]
  | succ k ih =>
    rw [extract_upto_exact_succ]
    simp only [extract_step_exact]
    split_ifs <;> omega

theorem extract_upto_exact_zeros (f : ℚ) (hf0 : 0 ≤ f) (hf1 : f < 1) (p : Int) (hp : 0 ≤ p) (k : Nat)
    (hk : k ≤ p.toNat) :
    (f * 10 ^ k < 1 → (extract_upto_exact f p k).initial_zeros =
        if k = p.toNat ∧ 0 < k ∧ 1 / 2 ≤ f * 10 ^ k then (k : Int) - 1 else k) ∧
    (1 ≤ f * 10 ^ k →
        (extract_upto_exact f p k).initial_zeros + ((decimal ⌊f * 10 ^ k⌋₊).length : Int) = k) := by
  induction k with
  | zero =>
    constructor
    · intro _; simp [extract_upto_exact_zero]
    · intro h1
      simp only [pow_zero, mul_one] at h1
      linarith
  | succ k ih =>
    have ihk := ih (by omega)
    have hkP : k ≠ p.toNat := by omega
    rw [extract_upto_exact_succ]
    have hsf : (extract_upto_exact f p k).f * 10 = f * 10 ^ k * 10 := by rw [extract_upto_exact_f]
    have hF' : f * 10 ^ (k + 1) = f * 10 ^ k * 10 := by ring
    have hF0 : 0 ≤ f * 10 ^ k := by positivity
    rw [hF']
    simp only [extract_step_exact, hsf]
    constructor
    · intro hlt
      have hFlt : f * 10 ^ k < 1 := by linarith
      have hz := ihk.1 hFlt
      rw [if_neg (fun h => hkP h.1)] at hz
      rw [if_pos hlt, hz]
      have hjp : ((k : Int) = p - 1) ↔ (k + 1 = p.toNat) := by omega
      by_cases hc : (k : Int) = p - 1 ∧ f * 10 ^ k * 10 ≥ 1 / 2
      · rw [if_neg (not_not.mpr hc), if_pos ⟨hjp.mp hc.1, Nat.succ_pos k, hc.2⟩]
        push_cast; ring
      · rw [if_pos hc, if_neg (fun h => hc ⟨hjp.mpr h.1, h.2.2⟩)]
        push_cast; ring
    · intro hge
      rw [if_neg (not_lt.mpr hge)]
      by_cases hFlt : f * 10 ^ k < 1
      · have hz := ihk.1 hFlt
        rw [if_neg (fun h => hkP h.1)] at hz
        have hlt10 : ⌊f * 10 ^ k * 10⌋₊ < 10 :=
          (Nat.floor_lt (by positivity)).mpr (by push_cast; linarith)
        rw [hz, decimal_of_lt_ten _ hlt10]
        simp
      · have hz := ihk.2 (not_lt.mp hFlt)
        have hq : ⌊f * 10 ^ k * 10⌋₊ / 10 ≠ 0 := by
          rw [natFloor_mul_ten_div]
          intro h0
          have := Nat.floor_eq_zero.mp h0
          exact hFlt this
        rw [decimal_step _ hq, natFloor_mul_ten_div]
        simp only [List.length_append, List.length_singleton]
        push_cast
        linarith

/-! ## The three ways the exact run finishes on a non-negative value -/

theorem put_zeros_natCast (n : Nat) : put_zeros (n : Int) = some (List.replicate n '0') := by
  unfold put_zeros
  rw [if_neg (by omega)]
  simp

theorem put_zeros_of_nonneg (z : Int) (hz : 0 ≤ z) :
    put_zeros z = some (List.replicate z.toNat '0') := by
  unfold put_zeros
  rw [if_neg (by omega)]

/-- No round-up: the integer part, the point, and the extracted digits padded
to `p` places. -/
theorem putfloat_abs_exact_truncating (x : ℚ) (hx : 0 ≤ x) (p : Int) (hp : 0 ≤ p)
    (hr : Int.fract (Int.fract x * 10 ^ p.toNat) < 1 / 2)
    (h1 : Int.fract x * 10 ^ p.toNat ≠ 1) :
    putfloat_abs_exact x p =
      some (decimal ⌊x⌋₊ ++ ['.'] ++ padded p.toNat ⌊Int.fract x * 10 ^ p.toNat⌋₊) := by
  have hf0 := Int.fract_nonneg x
  have hf1 := Int.fract_lt_one x
  have hF0 : 0 ≤ Int.fract x * 10 ^ p.toNat := by positivity
  have hsf := extract_upto_exact_f (Int.fract x) p p.toNat
  have hz := extract_upto_exact_zeros (Int.fract x) hf0 hf1 p hp p.toNat le_rfl
  have hnn := extract_upto_exact_zeros_nonneg (Int.fract x) p p.toNat
  have hround : round_up_exact x p (extract_upto_exact (Int.fract x) p p.toNat) =
      { x := x, f := Int.fract x * 10 ^ p.toNat,
        initial_zeros := (extract_upto_exact (Int.fract x) p p.toNat).initial_zeros } := by
    unfold round_up_exact
    rw [hsf, trunc_of_nonneg _ hF0, Int.self_sub_floor, if_neg (not_le.mpr hr)]
  unfold putfloat_abs_exact
  rw [sub_trunc_eq_fract x hx, extract_exact_eq_upto]
  simp only [hround]
  rw [trunc_eq_natFloor x hx, putlong_natCast]
  by_cases hlt : Int.fract x * 10 ^ p.toNat < 1
  · have hfr : Int.fract (Int.fract x * 10 ^ p.toNat) = Int.fract x * 10 ^ p.toNat :=
      Int.fract_eq_iff.mpr ⟨hF0, hlt, 0, by simp⟩
    have hzv := hz.1 hlt
    rw [if_neg (fun h => by rw [hfr] at hr; linarith [h.2.2])] at hzv
    rw [hzv, put_zeros_natCast, if_neg (by linarith), Nat.floor_eq_zero.mpr hlt, padded_zero]
    simp
  · have hgt : 1 < Int.fract x * 10 ^ p.toNat := lt_of_le_of_ne (not_lt.mp hlt) (Ne.symm h1)
    have hzv := hz.2 (le_of_lt hgt)
    have hne : ⌊Int.fract x * 10 ^ p.toNat⌋₊ ≠ 0 := by
      intro h0
      exact hlt (Nat.floor_eq_zero.mp h0)
    rw [put_zeros_of_nonneg _ hnn, if_pos hgt, trunc_eq_natFloor _ hF0, putlong_natCast,
      padded_eq p.toNat _ hne (extract_upto_exact (Int.fract x) p p.toNat).initial_zeros.toNat (by omega)]
    simp

/-- Zero digits followed by a remainder of at least one half: the last place is
rounded up to `1`. -/
theorem putfloat_abs_exact_half_up (x : ℚ) (hx : 0 ≤ x) (p : Int) (hp : 1 ≤ p)
    (hhalf : 1 / 2 ≤ Int.fract x * 10 ^ p.toNat) (hlt : Int.fract x * 10 ^ p.toNat < 1) :
    putfloat_abs_exact x p =
      some (decimal ⌊x⌋₊ ++ ['.'] ++ List.replicate (p.toNat - 1) '0' ++ ['1']) := by
  have hf0 := Int.fract_nonneg x
  have hf1 := Int.fract_lt_one x
  have hF0 : 0 ≤ Int.fract x * 10 ^ p.toNat := by positivity
  have hP : 0 < p.toNat := by omega
  have hsf := extract_upto_exact_f (Int.fract x) p p.toNat
  have hz := (extract_upto_exact_zeros (Int.fract x) hf0 hf1 p (by omega) p.toNat le_rfl).1 hlt
  rw [if_pos ⟨rfl, hP, hhalf⟩] at hz
  have hflag : (extract_upto_exact (Int.fract x) p p.toNat).fraction_overflow = false := by
    by_contra hc
    have ht : (extract_upto_exact (Int.fract x) p p.toNat).fraction_overflow = true := by
      simpa using hc
    have h9 := (extract_upto_exact_overflow (Int.fract x) hf0 p p.toNat).mp ht 0 hP
    have hle : Int.fract x * 10 ^ (0 + 1) ≤ Int.fract x * 10 ^ p.toNat :=
      mul_le_mul_of_nonneg_left (pow_le_pow_right₀ (by norm_num) (by omega)) hf0
    have hfl : ⌊Int.fract x * 10 ^ (0 + 1)⌋ = 0 :=
      Int.floor_eq_iff.mpr ⟨by simp [hf0], by
        have := lt_of_le_of_lt hle hlt
        simpa using this⟩
    rw [hfl] at h9
    omega
  have hfloor : ⌊Int.fract x * 10 ^ p.toNat⌋ = 0 :=
    Int.floor_eq_iff.mpr ⟨by simp [hF0], by simpa using hlt⟩
  have hround : round_up_exact x p (extract_upto_exact (Int.fract x) p p.toNat) =
      { x := x, f := Int.fract x * 10 ^ p.toNat + 1, initial_zeros := (p.toNat : Int) - 1 } := by
    unfold round_up_exact
    rw [hsf, trunc_of_nonneg _ hF0, hfloor, hflag, hz]
    rw [if_pos (by simpa using hhalf), if_pos rfl, if_neg (fun h => by linarith [h.1])]
  have hone : trunc (Int.fract x * 10 ^ p.toNat + 1) = ((1 : Nat) : Int) := by
    rw [trunc_of_nonneg _ (by linarith), Int.floor_add_one, hfloor]
    rfl
  unfold putfloat_abs_exact
  rw [sub_trunc_eq_fract x hx, extract_exact_eq_upto]
  simp only [hround]
  have hcast : (p.toNat : Int) - 1 = ((p.toNat - 1 : Nat) : Int) := by omega
  rw [trunc_eq_natFloor x hx, putlong_natCast, hcast, put_zeros_natCast,
    if_pos (by linarith), hone, putlong_natCast, decimal_of_lt_ten 1 (by norm_num)]
  rfl

/-- All extracted digits are nine and the remainder is at least one half: the
carry goes into the integer part. -/
theorem round_up_exact_carry (x : ℚ) (hx : 0 ≤ x) (p : Int)
    (h9 : ∀ j : Nat, j < p.toNat → ⌊Int.fract x * 10 ^ (j + 1)⌋ % 10 = 9)
    (hr : 1 / 2 ≤ Int.fract (Int.fract x * 10 ^ p.toNat)) :
    round_up_exact x p (extract_exact (x - trunc x) p) = { x := x + 1, f := 0, initial_zeros := p - 1 } := by
  have hf0 := Int.fract_nonneg x
  have hF0 : 0 ≤ Int.fract x * 10 ^ p.toNat := by positivity
  have hsf := extract_upto_exact_f (Int.fract x) p p.toNat
  have hflag := (extract_upto_exact_overflow (Int.fract x) hf0 p p.toNat).mpr h9
  rw [sub_trunc_eq_fract x hx, extract_exact_eq_upto]
  unfold round_up_exact
  rw [hsf, trunc_of_nonneg _ hF0, Int.self_sub_floor, hflag, if_pos hr, if_neg (by simp)]

theorem putfloat_abs_exact_carry (x : ℚ) (hx : 0 ≤ x) (p : Int) (hp : 1 ≤ p)
    (h9 : ∀ j : Nat, j < p.toNat → ⌊Int.fract x * 10 ^ (j + 1)⌋ % 10 = 9)
    (hr : 1 / 2 ≤ Int.fract (Int.fract x * 10 ^ p.toNat)) :
    putfloat_abs_exact x p =
      some (decimal (⌊x⌋₊ + 1) ++ ['.'] ++ List.replicate (p.toNat - 1) '0') := by
  unfold putfloat_abs_exact
  simp only [round_up_exact_carry x hx p h9 hr]
  have hcast : p - 1 = ((p.toNat - 1 : Nat) : Int) := by omega
  have hx1 : trunc (x + 1) = ((⌊x⌋₊ + 1 : Nat) : Int) := by
    rw [trunc_eq_natFloor _ (by linarith), Nat.floor_add_one hx]
  rw [hcast, put_zeros_natCast, hx1, putlong_natCast, if_neg (by norm_num)]
  simp

theorem zero_digits_lt_one (f : ℚ) (hf0 : 0 ≤ f) (hf1 : f < 1) (k : Nat)
    (h : ∀ j : Nat, j < k → ⌊f * 10 ^ (j + 1)⌋ % 10 = 0) : f * 10 ^ k < 1 := by
  induction k with
  | zero => simpa using hf1
  | succ k ih =>
    have hk := ih (fun j hj => h j (Nat.lt_succ_of_lt hj))
    have hd := h k (Nat.lt_succ_self k)
    have hnn : 0 ≤ f * 10 ^ (k + 1) := by positivity
    have hlt10 : f * 10 ^ (k + 1) < 10 := by rw [pow_succ]; linarith
    have h0 : (0 : Int) ≤ ⌊f * 10 ^ (k + 1)⌋ := Int.floor_nonneg.mpr hnn
    have h10 : ⌊f * 10 ^ (k + 1)⌋ < 10 := Int.floor_lt.mpr (by exact_mod_cast hlt10)
    have hfl : ⌊f * 10 ^ (k + 1)⌋ = 0 := by omega
    have := Int.floor_eq_iff.mp hfl
    simpa using this.2

theorem padded_length (p n : Nat) : (padded p n).length = p := by
  induction p generalizing n with
  | zero => rfl
  | succ p ih => simp [padded, ih]

/-! ## Digits that are all nine -/

theorem nine_digits_iff (f : ℚ) (hf0 : 0 ≤ f) (hf1 : f < 1) (k : Nat) :
    (∀ j : Nat, j < k → ⌊f * 10 ^ (j + 1)⌋ % 10 = 9) ↔ 10 ^ k - 1 ≤ f * 10 ^ k := by
  induction k with
  | zero => simp [hf0]
  | succ k ih =>
    have hpow : (0 : ℚ) < 10 ^ k := by positivity
    have hlt : f * 10 ^ (k + 1) < ((10 * 10 ^ k : Int) : ℚ) := by
      push_cast
      rw [pow_succ]
      nlinarith
    have hfl_lt : ⌊f * 10 ^ (k + 1)⌋ < 10 * 10 ^ k := Int.floor_lt.mpr hlt
    constructor
    · intro h
      have hk : 10 ^ k - 1 ≤ f * 10 ^ k := ih.mp (fun j hj => h j (Nat.lt_succ_of_lt hj))
      have hd := h k (Nat.lt_succ_self k)
      have hge : ((10 * 10 ^ k - 10 : Int) : ℚ) ≤ f * 10 ^ (k + 1) := by
        push_cast
        rw [pow_succ]
        nlinarith
      have hfl_ge : 10 * 10 ^ k - 10 ≤ ⌊f * 10 ^ (k + 1)⌋ := Int.le_floor.mpr hge
      have hpos : (0 : Int) < 10 ^ k := by positivity
      have hfl : ⌊f * 10 ^ (k + 1)⌋ = 10 * 10 ^ k - 1 := by omega
      have hle := Int.floor_le (f * 10 ^ (k + 1))
      rw [hfl] at hle
      push_cast at hle
      have e : (10 : ℚ) ^ (k + 1) = 10 * 10 ^ k := by ring
      rw [e] at hle ⊢
      exact hle
    · intro h j hj
      rw [pow_succ] at h
      rcases Nat.lt_succ_iff_lt_or_eq.mp hj with hjk | rfl
      · exact ih.mpr (by nlinarith) j hjk
      · have hfl : ⌊f * 10 ^ (j + 1)⌋ = 10 * 10 ^ j - 1 := by
          rw [Int.floor_eq_iff]
          push_cast
          rw [pow_succ]
          constructor <;> nlinarith
        have hpos : (0 : Int) < 10 ^ j := by positivity
        rw [hfl]
        omega

theorem extract_exact_overflow_iff_ge (x : ℚ) (hx : 0 ≤ x) (p : Int) :
    (extract_exact (x - trunc x) p).fraction_overflow = true ↔
      1 - 1 / 10 ^ p.toNat ≤ Int.fract x := by
  have hf0 := Int.fract_nonneg x
  have hf1 := Int.fract_lt_one x
  rw [sub_trunc_eq_fract x hx, extract_exact_eq_upto, extract_upto_exact_overflow _ hf0,
    nine_digits_iff _ hf0 hf1]
  have hpow : (0 : ℚ) < 10 ^ p.toNat := by positivity
  have hcalc : (1 - 1 / 10 ^ p.toNat : ℚ) * 10 ^ p.toNat = 10 ^ p.toNat - 1 := by
    field_simp
  rw [← hcalc]
  exact mul_le_mul_right hpow

/-! ## The buffer of `putlong` -/

theorem putlong_loop_length (n : Nat) (k : Nat) (hk : 1 ≤ k) (h : n < 10 ^ k) :
    1 ≤ (putlong_loop (n : Int) []).length ∧ (putlong_loop (n : Int) []).length ≤ k := by
  rw [putlong_loop_natCast]
  by_cases hn : n = 0
  · simp [hn]; omega
  · simp only [hn, if_false, List.nil_append, List.length_map]
    constructor
    · have hne : Nat.digits 10 n ≠ [] := Nat.digits_ne_nil_iff_ne_zero.mpr hn
      exact Nat.succ_le_of_lt (List.length_pos.mpr hne)
    · have hle := Nat.base_pow_length_digits_le 10 n (by norm_num) hn
      have hlt : 10 ^ (Nat.digits 10 n).length < 10 ^ (k + 1) := by
        rw [pow_succ]
        omega
      have := (Nat.pow_lt_pow_iff_right (by norm_num : 1 < 10)).mp hlt
      omega

/-! ## Rounding at two places in exact arithmetic -/

theorem decimal_length_one (m : Nat) (h : m < 10) : (decimal m).length = 1 := by
  rw [decimal_of_lt_ten m h]
  rfl

theorem decimal_length_two (m : Nat) (h10 : 10 ≤ m) (h : m < 100) : (decimal m).length = 2 := by
  rw [decimal_step m (by omega), decimal_of_lt_ten (m / 10) (by omega)]
  rfl

/-- Round-up at precision 2 with an accumulated value of at least 1 and a
fraction below 0.995: the incremented value is printed on two places. -/
theorem putfloat_abs_exact_round_two (x : ℚ) (hx : 0 ≤ x)
    (hge : 1 ≤ Int.fract x * 10 ^ 2) (hlt : Int.fract x * 10 ^ 2 < 995 / 10)
    (hr : 1 / 2 ≤ Int.fract (Int.fract x * 10 ^ 2)) :
    putfloat_abs_exact x 2 =
      some (decimal ⌊x⌋₊ ++ ['.'] ++ padded 2 (⌊Int.fract x * 10 ^ 2⌋₊ + 1)) := by
  have hf0 := Int.fract_nonneg x
  have hf1 := Int.fract_lt_one x
  set F := Int.fract x * 10 ^ 2 with hFdef
  set n := ⌊F⌋₊ with hndef
  have hP : (2 : Int).toNat = 2 := rfl
  have hF0 : 0 ≤ F := by positivity
  have hsf := extract_upto_exact_f (Int.fract x) 2 2
  have hz := (extract_upto_exact_zeros (Int.fract x) hf0 hf1 2 (by norm_num) 2 (by simp)).2 hge
  have hfloor_le : (n : ℚ) ≤ F := Nat.floor_le hF0
  have hfloor_lt : F < n + 1 := Nat.lt_floor_add_one _
  have hfr : Int.fract (F) =
      F - (n : ℚ) := by
    rw [← Int.self_sub_floor, ← Int.natCast_floor_eq_floor hF0]
    norm_cast
  have hn1 : 1 ≤ n := Nat.le_floor (by simpa using hge)
  have hn98 : n ≤ 98 := by
    by_contra hc
    have h99 : (99 : ℚ) ≤ (n : ℚ) := by
      exact_mod_cast (by omega : 99 ≤ n)
    rw [hfr] at hr
    linarith
  have hflag : (extract_upto_exact (Int.fract x) 2 2).fraction_overflow = false := by
    by_contra hc
    have ht : (extract_upto_exact (Int.fract x) 2 2).fraction_overflow = true := by simpa using hc
    have h9 := (nine_digits_iff _ hf0 hf1 2).mp ((extract_upto_exact_overflow _ hf0 2 2).mp ht)
    rw [hfr] at hr
    have h99 : (99 : ℚ) ≤ (n : ℚ) := by
      exact_mod_cast (Nat.le_floor (by norm_num at h9 ⊢; linarith) : 99 ≤ n)
    have : (n : ℚ) ≤ 98 := by exact_mod_cast hn98
    linarith
  have hnn := extract_upto_exact_zeros_nonneg (Int.fract x) 2 2
  have hone : trunc (F + 1) = ((n + 1 : Nat) : Int) := by
    rw [trunc_eq_natFloor _ (by linarith), Nat.floor_add_one hF0]
  have hgt1 : F + 1 > 1 := by linarith
  -- the leading-zero count after the rounding block
  have hround : ∃ z : Nat, z + (decimal (n + 1)).length = 2 ∧
      round_up_exact x 2 (extract_upto_exact (Int.fract x) 2 2) =
        { x := x, f := F + 1, initial_zeros := (z : Int) } := by
    unfold round_up_exact
    rw [hsf, trunc_of_nonneg _ hF0, Int.self_sub_floor, if_pos hr, hflag, if_pos rfl]
    rcases Nat.lt_or_ge n 9 with h9 | h9
    · have hl := decimal_length_one n (by omega)
      rw [hl] at hz
      have hF9 : F < 9 := by
        have : ((n : ℚ)) + 1 ≤ 9 := by exact_mod_cast h9
        linarith
      refine ⟨1, by rw [decimal_length_one _ (by omega)], ?_⟩
      rw [if_neg (fun h => by linarith [h.1])]
      congr 1
      push_cast at hz ⊢
      omega
    · rcases Nat.eq_or_lt_of_le h9 with h9e | h10
      · have hl := decimal_length_one n (by omega)
        rw [hl] at hz
        have hF9 : 9 ≤ F := by
          rw [← h9e] at hfloor_le
          exact_mod_cast hfloor_le
        refine ⟨0, by rw [decimal_length_two _ (by omega) (by omega)], ?_⟩
        rw [if_pos ⟨by linarith, by push_cast at hz; omega⟩]
        congr 1
        push_cast at hz ⊢
        omega
      · have hl := decimal_length_two n (by omega) (by omega)
        rw [hl] at hz
        refine ⟨0, by rw [decimal_length_two _ (by omega) (by omega)], ?_⟩
        rw [if_neg (fun h => by have := h.2; push_cast at hz; omega)]
        congr 1
        push_cast at hz ⊢
        omega
  obtain ⟨z, hzlen, hrd⟩ := hround
  unfold putfloat_abs_exact
  rw [sub_trunc_eq_fract x hx, extract_exact_eq_upto, hP]
  simp only [hrd]
  rw [trunc_eq_natFloor x hx, putlong_natCast, put_zeros_natCast, if_pos hgt1, hone,
    putlong_natCast, padded_eq 2 _ (by omega) z hzlen]
  simp

theorem natFloor_add_half_of_lt (F : ℚ) (hF0 : 0 ≤ F) (hr : Int.fract F < 1 / 2) :
    ⌊F + 1 / 2⌋₊ = ⌊F⌋₊ := by
  have hfr : Int.fract F = F - (⌊F⌋₊ : ℚ) := by
    rw [← Int.self_sub_floor, ← Int.natCast_floor_eq_floor hF0]
    norm_cast
  rw [hfr] at hr
  rw [Nat.floor_eq_iff (by linarith)]
  have := Nat.floor_le hF0
  constructor <;> linarith

theorem natFloor_add_half_of_ge (F : ℚ) (hF0 : 0 ≤ F) (hr : 1 / 2 ≤ Int.fract F) :
    ⌊F + 1 / 2⌋₊ = ⌊F⌋₊ + 1 := by
  have hfr : Int.fract F = F - (⌊F⌋₊ : ℚ) := by
    rw [← Int.self_sub_floor, ← Int.natCast_floor_eq_floor hF0]
    norm_cast
  rw [hfr] at hr
  rw [Nat.floor_eq_iff (by linarith)]
  have := Nat.lt_floor_add_one F
  push_cast
  constructor <;> linarith

/-- Precision 2 with a fraction below 0.995 and different from 0.01: the two
places printed are those of `⌊100 * frac x + 1/2⌋`. -/
theorem putfloat_abs_exact_two_places (x : ℚ) (hx : 0 ≤ x) (hlt : Int.fract x < 995 / 1000)
    (hne : Int.fract x ≠ 1 / 100) :
    putfloat_abs_exact x 2 =
      some (decimal ⌊x⌋₊ ++ ['.'] ++ padded 2 ⌊Int.fract x * 10 ^ 2 + 1 / 2⌋₊) := by
  have hf0 := Int.fract_nonneg x
  have hP : (2 : Int).toNat = 2 := rfl
  have hF0 : 0 ≤ Int.fract x * 10 ^ 2 := by positivity
  by_cases hr : Int.fract (Int.fract x * 10 ^ 2) < 1 / 2
  · rw [natFloor_add_half_of_lt _ hF0 hr]
    have h := putfloat_abs_exact_truncating x hx 2 (by norm_num)
    rw [hP] at h
    exact h hr (fun h1 => hne (by linarith))
  · have hr' : 1 / 2 ≤ Int.fract (Int.fract x * 10 ^ 2) := not_lt.mp hr
    rw [natFloor_add_half_of_ge _ hF0 hr']
    by_cases h1 : Int.fract x * 10 ^ 2 < 1
    · have hfr : Int.fract (Int.fract x * 10 ^ 2) = Int.fract x * 10 ^ 2 :=
        Int.fract_eq_iff.mpr ⟨hF0, h1, 0, by simp⟩
      have h := putfloat_abs_exact_half_up x hx 2 (by norm_num)
      rw [hP] at h
      have hpad : padded 2 (0 + 1) = List.replicate (2 - 1) '0' ++ ['1'] := by decide
      rw [h (by rw [hfr] at hr'; exact hr') h1, Nat.floor_eq_zero.mpr h1, hpad]
      simp
    · exact putfloat_abs_exact_round_two x hx (not_lt.mp h1) (by linarith) hr'

theorem stdRender_two_places (x : ℚ) (hx : 0 ≤ x) (hlt : Int.fract x < 995 / 1000) :
    stdRender x 2 = decimal ⌊x⌋₊ ++ ['.'] ++ padded 2 ⌊Int.fract x * 10 ^ 2 + 1 / 2⌋₊ := by
  have hf0 := Int.fract_nonneg x
  have hg0 : 0 ≤ Int.fract x * 10 ^ 2 + 1 / 2 := by positivity
  have hsplit : x * 10 ^ 2 + 1 / 2 =
      (Int.fract x * 10 ^ 2 + 1 / 2) + ((100 * ⌊x⌋ : Int) : ℚ) := by
    have := Int.floor_add_fract x
    push_cast
    linarith
  have hm : (⌊x * 10 ^ 2 + 1 / 2⌋).toNat = ⌊Int.fract x * 10 ^ 2 + 1 / 2⌋₊ + 100 * ⌊x⌋₊ := by
    rw [hsplit, Int.floor_add_int, ← Int.natCast_floor_eq_floor hg0,
      ← Int.natCast_floor_eq_floor hx]
    omega
  have hg : ⌊Int.fract x * 10 ^ 2 + 1 / 2⌋₊ < 100 :=
    (Nat.floor_lt hg0).mpr (by push_cast; linarith)
  unfold stdRender
  simp only [hm]
  have hdiv : (⌊Int.fract x * 10 ^ 2 + 1 / 2⌋₊ + 100 * ⌊x⌋₊) / 10 ^ 2 = ⌊x⌋₊ := by omega
  have hmod : (⌊Int.fract x * 10 ^ 2 + 1 / 2⌋₊ + 100 * ⌊x⌋₊) % 10 ^ 2 =
      ⌊Int.fract x * 10 ^ 2 + 1 / 2⌋₊ := by omega
  rw [hdiv, hmod]

/-! ## Facts about binary32 rounding -/

theorem log2n_spec (fuel : Nat) : ∀ n : Nat, 1 ≤ n → n ≤ fuel →
    2 ^ log2n fuel n ≤ n ∧ n < 2 ^ (log2n fuel n + 1) := by
  induction fuel with
  | zero =>
    intro n h1 h2
    omega
  | succ fuel ih =>
    intro n h1 h2
    unfold log2n
    by_cases hn : n < 2
    · rw [if_pos hn]
      simp only [pow_zero, zero_add, pow_one]
      omega
    · rw [if_neg hn]
      obtain ⟨hlo, hhi⟩ := ih (n / 2) (by omega) (by omega)
      rw [pow_succ, pow_succ]
      rw [pow_succ] at hhi
      omega

theorem ilog2_spec (q : ℚ) (hq : 0 < q) :
    (2 : ℚ) ^ ilog2 q ≤ q ∧ q < (2 : ℚ) ^ (ilog2 q + 1) := by
  have hnum : 0 < q.num := Rat.num_pos.mpr hq
  have hden : 0 < q.den := q.den_pos
  have hn1 : 1 ≤ q.num.natAbs := by omega
  obtain ⟨hnlo, hnhi⟩ := log2n_spec q.num.natAbs q.num.natAbs hn1 le_rfl
  obtain ⟨hdlo, hdhi⟩ := log2n_spec q.den q.den hden le_rfl
  have habs : |q| = q := abs_of_pos hq
  have hqdef : q = (q.num.natAbs : ℚ) / (q.den : ℚ) := by
    have hcast : (q.num.natAbs : ℚ) = (q.num : ℚ) := by
      rw [← Int.cast_natCast, Int.natAbs_of_nonneg (le_of_lt hnum)]
    rw [hcast]
    exact (Rat.num_div_den q).symm
  have hdq : (0 : ℚ) < (q.den : ℚ) := by exact_mod_cast hden
  set a := log2n q.num.natAbs q.num.natAbs with ha
  set b := log2n q.den q.den with hb
  have hnlo' : (2 : ℚ) ^ a ≤ (q.num.natAbs : ℚ) := by exact_mod_cast hnlo
  have hnhi' : (q.num.natAbs : ℚ) < (2 : ℚ) ^ (a + 1) := by exact_mod_cast hnhi
  have hdlo' : (2 : ℚ) ^ b ≤ (q.den : ℚ) := by exact_mod_cast hdlo
  have hdhi' : (q.den : ℚ) < (2 : ℚ) ^ (b + 1) := by exact_mod_cast hdhi
  have h2 : (2 : ℚ) ≠ 0 := by norm_num
  have hpa : (0 : ℚ) < 2 ^ a := by positivity
  have hpb : (0 : ℚ) < 2 ^ b := by positivity
  have hz1 : (2 : ℚ) ^ ((a : Int) - (b : Int) - 1) = 2 ^ a / 2 ^ (b + 1) := by
    rw [show (a : Int) - (b : Int) - 1 = (a : Int) - ((b + 1 : Nat) : Int) by push_cast; ring,
      zpow_sub₀ h2, zpow_natCast, zpow_natCast]
  have hz2 : (2 : ℚ) ^ ((a : Int) - (b : Int) + 1) = 2 ^ (a + 1) / 2 ^ b := by
    rw [show (a : Int) - (b : Int) + 1 = ((a + 1 : Nat) : Int) - (b : Int) by push_cast; ring,
      zpow_sub₀ h2, zpow_natCast, zpow_natCast]
  have hlow : (2 : ℚ) ^ ((a : Int) - (b : Int) - 1) ≤ q := by
    rw [hz1, hqdef, div_le_div_iff₀ (by positivity) hdq]
    have : (q.den : ℚ) ≤ 2 ^ (b + 1) := le_of_lt hdhi'
    calc (2 : ℚ) ^ a * (q.den : ℚ) ≤ (q.num.natAbs : ℚ) * (q.den : ℚ) :=
          mul_le_mul_of_nonneg_right hnlo' (le_of_lt hdq)
      _ ≤ (q.num.natAbs : ℚ) * 2 ^ (b + 1) :=
          mul_le_mul_of_nonneg_left this (by positivity)
  have hupp : q < (2 : ℚ) ^ ((a : Int) - (b : Int) + 1) := by
    rw [hz2, hqdef, div_lt_div_iff₀ hdq hpb]
    calc (q.num.natAbs : ℚ) * 2 ^ b ≤ (q.num.natAbs : ℚ) * (q.den : ℚ) :=
          mul_le_mul_of_nonneg_left hdlo' (by positivity)
      _ < 2 ^ (a + 1) * (q.den : ℚ) := mul_lt_mul_of_pos_right hnhi' hdq
  unfold ilog2
  rw [habs]
  by_cases hc : (2 : ℚ) ^ ((a : Int) - (b : Int)) ≤ q
  · rw [if_pos hc]
    exact ⟨hc, hupp⟩
  · rw [if_neg hc]
    refine ⟨hlow, ?_⟩
    rw [sub_add_cancel]
    exact not_le.mp hc

theorem le_rne (t : ℚ) (n : Int) (h : (n : ℚ) ≤ t) : n ≤ rne t := by
  have hfl : n ≤ ⌊t⌋ := Int.le_floor.mpr h
  unfold rne
  split_ifs <;> omega

theorem f32_ge_two (q : ℚ) (hq : 2 ≤ q) : 2 ≤ f32 q := by
  have hpos : 0 < q := by linarith
  obtain ⟨hlo, hhi⟩ := ilog2_spec q hpos
  have he : 1 ≤ ilog2 q := by
    by_contra hc
    have hle : ilog2 q + 1 ≤ 1 := by omega
    have : (2 : ℚ) ^ (ilog2 q + 1) ≤ 2 ^ (1 : Int) := zpow_le_zpow_right₀ (by norm_num) hle
    rw [zpow_one] at this
    linarith
  have hmax : max (ilog2 q) (-126) = ilog2 q := max_eq_left (by omega)
  have hu : ulp q = 2 ^ (ilog2 q - 23) := by
    unfold ulp
    rw [hmax]
  have hupos : (0 : ℚ) < ulp q := by
    rw [hu]
    positivity
  have h2 : (2 : ℚ) ≠ 0 := by norm_num
  have hprod : ((2 ^ 23 : Int) : ℚ) * ulp q = 2 ^ ilog2 q := by
    have h23 : (2 : ℚ) ^ (23 : Int) = 8388608 := by norm_num
    rw [hu, zpow_sub₀ h2, h23]
    push_cast
    field_simp
  have hrne : (2 ^ 23 : Int) ≤ rne (q / ulp q) := by
    apply le_rne
    rw [le_div_iff₀ hupos, hprod]
    exact hlo
  have hr : (2 : ℚ) ≤ (rne (q / ulp q) : ℚ) * ulp q := by
    have h1 : ((2 ^ 23 : Int) : ℚ) ≤ (rne (q / ulp q) : ℚ) := by exact_mod_cast hrne
    have h2' : (2 : ℚ) ^ (1 : Int) ≤ 2 ^ ilog2 q := zpow_le_zpow_right₀ (by norm_num) he
    rw [zpow_one] at h2'
    calc (2 : ℚ) ≤ 2 ^ ilog2 q := h2'
      _ = ((2 ^ 23 : Int) : ℚ) * ulp q := hprod.symm
      _ ≤ (rne (q / ulp q) : ℚ) * ulp q := mul_le_mul_of_nonneg_right h1 (le_of_lt hupos)
  unfold f32
  rw [if_neg (ne_of_gt hpos)]
  split_ifs with hbig
  · norm_num
  · exact hr

theorem f32_zero : f32 0 = 0 := by decide!

theorem f32_one : f32 1 = 1 := by decide!

/-! ## The extraction loop in binary32 -/

theorem toLong_of_nonneg (LONG_MAX : Int) (q : ℚ) (h0 : 0 ≤ q) (hL : ⌊q⌋ ≤ LONG_MAX) :
    toLong LONG_MAX q = some ⌊q⌋ := by
  have hfl : (0 : Int) ≤ ⌊q⌋ := Int.floor_nonneg.mpr h0
  unfold toLong
  rw [trunc_of_nonneg q h0, if_pos ⟨by omega, hL⟩]

theorem toLong_eq_some (LONG_MAX : Int) (q : ℚ) (l : Int) (h : toLong LONG_MAX q = some l) :
    l = trunc q := by
  unfold toLong at h
  split_ifs at h
  exact (Option.some.inj h).symm

theorem extract_upto_zero (LONG_MAX : Int) (f : ℚ) (p : Int) :
    extract_upto LONG_MAX f p 0 =
      some { f := f, initial_zeros := 0, fraction_overflow := true } := rfl

theorem extract_upto_succ (LONG_MAX : Int) (f : ℚ) (p : Int) (k : Nat) :
    extract_upto LONG_MAX f p (k + 1) =
      (extract_upto LONG_MAX f p k).bind fun s => extract_step LONG_MAX p s k := by
  unfold extract_upto
  rw [List.range_succ, List.foldlM_append]
  simp only [List.foldlM_cons, List.foldlM_nil, bind_pure]
  rfl

theorem extract_step_some (LONG_MAX : Int) (p : Int) (s s' : Extracted) (j : Nat)
    (h : extract_step LONG_MAX p s j = some s') :
    s'.f = f32 (s.f * 10) ∧
    s'.initial_zeros =
      (if f32 (s.f * 10) < 1 then
        if ¬ ((j : Int) = p - 1 ∧ f32 (s.f * 10) ≥ 1 / 2) then s.initial_zeros + 1
        else s.initial_zeros
      else s.initial_zeros) := by
  unfold extract_step at h
  by_cases hflag : s.fraction_overflow = true
  · rw [if_pos hflag] at h
    obtain ⟨l, _, hl⟩ := Option.map_eq_some'.mp h
    subst hl
    exact ⟨rfl, rfl⟩
  · rw [if_neg hflag] at h
    have := Option.some.inj h
    subst this
    exact ⟨rfl, rfl⟩

theorem extract_upto_succ_some (LONG_MAX : Int) (f : ℚ) (p : Int) (k : Nat) (s' : Extracted)
    (h : extract_upto LONG_MAX f p (k + 1) = some s') :
    ∃ s, extract_upto LONG_MAX f p k = some s ∧ extract_step LONG_MAX p s k = some s' := by
  rw [extract_upto_succ] at h
  exact Option.bind_eq_some.mp h

theorem extract_upto_f (LONG_MAX : Int) (f : ℚ) (p : Int) (k : Nat) :
    ∀ s, extract_upto LONG_MAX f p k = some s → s.f = accumulator f k := by
  induction k with
  | zero =>
    intro s h
    rw [extract_upto_zero] at h
    have := Option.some.inj h
    subst this
    rfl
  | succ k ih =>
    intro s' h
    obtain ⟨s, hs, hstep⟩ := extract_upto_succ_some LONG_MAX f p k s' h
    rw [(extract_step_some LONG_MAX p s s' k hstep).1, ih s hs]
    rfl

theorem extract_upto_zeros_bounds (LONG_MAX : Int) (f : ℚ) (p : Int) (k : Nat) :
    ∀ s, extract_upto LONG_MAX f p k = some s → 0 ≤ s.initial_zeros ∧ s.initial_zeros ≤ k := by
  induction k with
  | zero =>
    intro s h
    rw [extract_upto_zero] at h
    have := Option.some.inj h
    subst this
    simp
  | succ k ih =>
    intro s' h
    obtain ⟨s, hs, hstep⟩ := extract_upto_succ_some LONG_MAX f p k s' h
    have hb := ih s hs
    rw [(extract_step_some LONG_MAX p s s' k hstep).2]
    push_cast
    split_ifs <;> omega

theorem extract_upto_zeros_small (LONG_MAX : Int) (f : ℚ) (p : Int) (k : Nat)
    (hk : (k : Int) ≤ p - 1) (hsmall : ∀ j : Nat, j < k → accumulator f (j + 1) < 1) :
    ∀ s, extract_upto LONG_MAX f p k = some s → s.initial_zeros = k := by
  induction k with
  | zero =>
    intro s h
    rw [extract_upto_zero] at h
    have := Option.some.inj h
    subst this
    rfl
  | succ k ih =>
    intro s' h
    obtain ⟨s, hs, hstep⟩ := extract_upto_succ_some LONG_MAX f p k s' h
    have hz := ih (by push_cast at hk; omega) (fun j hj => hsmall j (Nat.lt_succ_of_lt hj)) s hs
    have hf := extract_upto_f LONG_MAX f p k s hs
    have hlt : f32 (s.f * 10) < 1 := by
      rw [hf]
      exact hsmall k (Nat.lt_succ_self k)
    have hne : ¬ ((k : Int) = p - 1 ∧ f32 (s.f * 10) ≥ 1 / 2) := by
      intro hc
      push_cast at hk
      omega
    rw [(extract_step_some LONG_MAX p s s' k hstep).2, if_pos hlt, if_pos hne, hz]
    push_cast
    ring

theorem accumulator_ge_two (f : ℚ) (j : Nat) (h : 1 ≤ accumulator f j) :
    ∀ m : Nat, j < m → 2 ≤ accumulator f m := by
  intro m hm
  induction m with
  | zero => omega
  | succ m ih =>
    rcases Nat.lt_succ_iff_lt_or_eq.mp hm with hlt | heq
    · have := ih hlt
      exact f32_ge_two _ (by linarith)
    · subst heq
      exact f32_ge_two _ (by linarith)

theorem extract_upto_overflow (LONG_MAX : Int) (f : ℚ) (p : Int) (k : Nat) :
    ∀ s, extract_upto LONG_MAX f p k = some s →
      (s.fraction_overflow = true ↔
        ∀ j : Nat, j < k → ¬ Int.tmod (trunc (accumulator f (j + 1))) 10 < 9) := by
  induction k with
  | zero =>
    intro s h
    rw [extract_upto_zero] at h
    have := Option.some.inj h
    subst this
    simp
  | succ k ih =>
    intro s' h
    obtain ⟨s, hs, hstep⟩ := extract_upto_succ_some LONG_MAX f p k s' h
    have hf := extract_upto_f LONG_MAX f p k s hs
    have hacc : accumulator f (k + 1) = f32 (s.f * 10) := by
      rw [hf]
      rfl
    unfold extract_step at hstep
    by_cases hflag : s.fraction_overflow = true
    · rw [if_pos hflag] at hstep
      obtain ⟨l, hl, hs'⟩ := Option.map_eq_some'.mp hstep
      have hlt := toLong_eq_some LONG_MAX _ l hl
      subst hs'
      simp only []
      constructor
      · intro hres j hj
        rcases Nat.lt_succ_iff_lt_or_eq.mp hj with hlt' | heq
        · exact (ih s hs).mp hflag j hlt'
        · subst heq
          rw [hacc, ← hlt]
          intro hc
          rw [if_pos hc] at hres
          exact absurd hres (by simp)
      · intro hall
        have hk := hall k (Nat.lt_succ_self k)
        rw [hacc, ← hlt] at hk
        rw [if_neg hk]
    · rw [if_neg hflag] at hstep
      have := Option.some.inj hstep
      subst this
      simp only []
      constructor
      · intro hres
        exact absurd hres (by simp)
      · intro hall
        exact absurd ((ih s hs).mpr (fun j hj => hall j (Nat.lt_succ_of_lt hj))) hflag

/-! ## Runs without rounding agree with the exact run -/

theorem extract_upto_eq_exact (LONG_MAX : Int) (f : ℚ) (hf0 : 0 ≤ f) (p : Int) (k : Nat)
    (hexact : ∀ j : Nat, j < k → f32 (f * 10 ^ (j + 1)) = f * 10 ^ (j + 1))
    (hrange : ∀ j : Nat, j < k → ⌊f * 10 ^ (j + 1)⌋ ≤ LONG_MAX) :
    extract_upto LONG_MAX f p k = some (extract_upto_exact f p k) := by
  induction k with
  | zero => rfl
  | succ k ih =>
    rw [extract_upto_succ,
      ih (fun j hj => hexact j (Nat.lt_succ_of_lt hj)) (fun j hj => hrange j (Nat.lt_succ_of_lt hj)),
      extract_upto_exact_succ]
    have hsf : (extract_upto_exact f p k).f * 10 = f * 10 ^ (k + 1) := by
      rw [extract_upto_exact_f]
      ring
    have hF0 : 0 ≤ f * 10 ^ (k + 1) := by positivity
    have hfix := hexact k (Nat.lt_succ_self k)
    have hcast := toLong_of_nonneg LONG_MAX _ hF0 (hrange k (Nat.lt_succ_self k))
    simp only [Option.some_bind, extract_step, extract_step_exact, hsf, hfix, hcast,
      trunc_of_nonneg _ hF0]
    by_cases hflag : (extract_upto_exact f p k).fraction_overflow = true
    · simp only [hflag, if_true, Option.map_some', true_and]
    · have hfalse : (extract_upto_exact f p k).fraction_overflow = false := by
        simpa using hflag
      simp only [hfalse, Bool.false_eq_true, if_false, false_and]
theorem extracted_eq_exact (LONG_MAX : Int) (x : ℚ) (p : Int) (hx : 0 ≤ x)
    (he : exact_extraction LONG_MAX x p) :
    extracted LONG_MAX x p = some (extract_exact (Int.fract x) p) := by
  obtain ⟨_, hLx, hLf, hxi, hxf, hmul⟩ := he
  have hf0 := Int.fract_nonneg x
  have hfr : x - (⌊x⌋ : ℚ) = Int.fract x := Int.self_sub_floor x
  unfold extracted extract
  rw [toLong_of_nonneg LONG_MAX x hx hLx, Option.some_bind, hxi, hfr, hxf,
    extract_exact_eq_upto]
  apply extract_upto_eq_exact LONG_MAX _ hf0 p p.toNat hmul
  intro j hj
  have hle : Int.fract x * 10 ^ (j + 1) ≤ Int.fract x * 10 ^ p.toNat :=
    mul_le_mul_of_nonneg_left (pow_le_pow_right₀ (by norm_num) (by omega)) hf0
  exact le_trans (Int.floor_mono hle) hLf

theorem rounded_eq_exact (LONG_MAX : Int) (x : ℚ) (p : Int) (hx : 0 ≤ x)
    (he : exact_run LONG_MAX x p)
    (hup : 1 / 2 ≤ Int.fract (Int.fract x * 10 ^ p.toNat) →
      (extract_exact (Int.fract x) p).fraction_overflow = false →
      f32 (Int.fract x * 10 ^ p.toNat + 1) = Int.fract x * 10 ^ p.toNat + 1)
    (hcarry : 1 / 2 ≤ Int.fract (Int.fract x * 10 ^ p.toNat) →
      (extract_exact (Int.fract x) p).fraction_overflow = true → f32 (x + 1) = x + 1) :
    rounded LONG_MAX x p = some (round_up_exact x p (extract_exact (Int.fract x) p)) := by
  obtain ⟨hext, hLx, hLf, hFi, hFf⟩ := he
  have hF0 : 0 ≤ Int.fract x * 10 ^ p.toNat := mul_nonneg (Int.fract_nonneg x) (by positivity)
  have hsf : (extract_exact (Int.fract x) p).f = Int.fract x * 10 ^ p.toNat := by
    rw [extract_exact_eq_upto, extract_upto_exact_f]
  have hfr : Int.fract x * 10 ^ p.toNat - (⌊Int.fract x * 10 ^ p.toNat⌋ : ℚ) =
      Int.fract (Int.fract x * 10 ^ p.toNat) := Int.self_sub_floor _
  unfold rounded
  rw [extracted_eq_exact LONG_MAX x p hx hext, Option.some_bind]
  unfold round_up round_up_exact
  rw [hsf, toLong_of_nonneg LONG_MAX _ hF0 (le_of_lt hLf), Option.map_some', hFi, hfr, hFf,
    trunc_of_nonneg _ hF0, hfr]
  by_cases hr : 1 / 2 ≤ Int.fract (Int.fract x * 10 ^ p.toNat)
  · by_cases hflag : (extract_exact (Int.fract x) p).fraction_overflow = false
    · simp only [ge_iff_le, hr, if_true, hflag, hup hr hflag]
    · have ht : (extract_exact (Int.fract x) p).fraction_overflow = true := by simpa using hflag
      simp only [ge_iff_le, hr, if_true, ht, Bool.true_eq_false, if_false, hcarry hr ht]
  · simp only [ge_iff_le, hr, if_false]

theorem round_up_exact_bounds (x : ℚ) (p : Int) (s : Extracted) (hx : 0 ≤ x) (hs : 0 ≤ s.f) :
    0 ≤ (round_up_exact x p s).x ∧ (round_up_exact x p s).x ≤ x + 1 ∧
    0 ≤ (round_up_exact x p s).f ∧ (round_up_exact x p s).f ≤ s.f + 1 := by
  unfold round_up_exact
  split_ifs <;> simp only [] <;> refine ⟨?_, ?_, ?_, ?_⟩ <;> linarith

theorem putfloat_abs_eq_exact (LONG_MAX : Int) (x : ℚ) (p : Int) (hx : 0 ≤ x)
    (he : exact_run LONG_MAX x p)
    (hup : 1 / 2 ≤ Int.fract (Int.fract x * 10 ^ p.toNat) →
      (extract_exact (Int.fract x) p).fraction_overflow = false →
      f32 (Int.fract x * 10 ^ p.toNat + 1) = Int.fract x * 10 ^ p.toNat + 1)
    (hcarry : 1 / 2 ≤ Int.fract (Int.fract x * 10 ^ p.toNat) →
      (extract_exact (Int.fract x) p).fraction_overflow = true → f32 (x + 1) = x + 1) :
    putfloat_abs LONG_MAX x p = putfloat_abs_exact x p := by
  have hF0 : 0 ≤ Int.fract x * 10 ^ p.toNat := mul_nonneg (Int.fract_nonneg x) (by positivity)
  have hsf : (extract_exact (Int.fract x) p).f = Int.fract x * 10 ^ p.toNat := by
    rw [extract_exact_eq_upto, extract_upto_exact_f]
  have hb := round_up_exact_bounds x p (extract_exact (Int.fract x) p) hx (by rw [hsf]; exact hF0)
  rw [hsf] at hb
  obtain ⟨hrx0, hrx1, hrf0, hrf1⟩ := hb
  have hLx : ⌊x⌋ < LONG_MAX := he.2.1
  have hLf : ⌊Int.fract x * 10 ^ p.toNat⌋ < LONG_MAX := he.2.2.1
  have hcx : toLong LONG_MAX (round_up_exact x p (extract_exact (Int.fract x) p)).x =
      some (trunc (round_up_exact x p (extract_exact (Int.fract x) p)).x) := by
    rw [trunc_of_nonneg _ hrx0]
    apply toLong_of_nonneg _ _ hrx0
    have := Int.floor_mono hrx1
    rw [Int.floor_add_one] at this
    omega
  have hcf : toLong LONG_MAX (round_up_exact x p (extract_exact (Int.fract x) p)).f =
      some (trunc (round_up_exact x p (extract_exact (Int.fract x) p)).f) := by
    rw [trunc_of_nonneg _ hrf0]
    apply toLong_of_nonneg _ _ hrf0
    have := Int.floor_mono hrf1
    rw [Int.floor_add_one] at this
    omega
  unfold putfloat_abs putfloat_abs_exact
  rw [rounded_eq_exact LONG_MAX x p hx he hup hcarry, sub_trunc_eq_fract x hx]
  simp only [Option.some_bind, hcx, hcf]
  cases put_zeros (round_up_exact x p (extract_exact (Int.fract x) p)).initial_zeros with
  | none => rfl
  | some zeros =>
    simp only [Option.some_bind, Option.map_some']
    split_ifs <;> rfl

/-! ## The sign branch -/

theorem putfloat_of_nonneg (LONG_MAX : Int) (x : ℚ) (hx : 0 ≤ x) (p : Int) :
    putfloat LONG_MAX x p = putfloat_abs LONG_MAX x p := by
  unfold putfloat
  rw [if_neg (not_lt.mpr hx)]

theorem putfloat_of_neg (LONG_MAX : Int) (x : ℚ) (hx : x < 0) (p : Int) :
    putfloat LONG_MAX x p = (putfloat_abs LONG_MAX (-x) p).map (fun out => '-' :: out) := by
  unfold putfloat
  rw [if_pos hx]

/-! ## The leading-zero counter at the zero loop -/

/-- From precision 1 on, the counter that reaches the zero loop lies in `0..p`. -/
theorem rounded_zeros_bounds (LONG_MAX : Int) (x : ℚ) (p : Int) (hp : 1 ≤ p) (r : Rounded)
    (h : rounded LONG_MAX x p = some r) : 0 ≤ r.initial_zeros ∧ r.initial_zeros ≤ p := by
  unfold rounded at h
  obtain ⟨s, hs, hr⟩ := Option.bind_eq_some.mp h
  unfold extracted at hs
  obtain ⟨l, _, hext⟩ := Option.bind_eq_some.mp hs
  have hb := extract_upto_zeros_bounds LONG_MAX _ p p.toNat s hext
  unfold round_up at hr
  obtain ⟨l', _, hl'⟩ := Option.map_eq_some'.mp hr
  subst hl'
  split_ifs <;> simp only [] <;> omega

/-! ## An accumulator of exactly one -/

theorem putfloat_abs_of_accumulator_one (LONG_MAX : Int) (x : ℚ) (p : Int) (hx : 0 ≤ x)
    (hp : 1 ≤ p) (hL : 1 ≤ LONG_MAX) (s : Extracted)
    (hs : extracted LONG_MAX x p = some s) (h1 : s.f = 1) :
    putfloat_abs LONG_MAX x p =
      some (decimal ⌊x⌋₊ ++ ['.'] ++ List.replicate (p.toNat - 1) '0') := by
  have hs' := hs
  unfold extracted at hs'
  obtain ⟨l, hl, hext⟩ := Option.bind_eq_some.mp hs'
  have hlx : l = ((⌊x⌋₊ : Nat) : Int) := by
    rw [toLong_eq_some LONG_MAX x l hl, trunc_eq_natFloor x hx]
  obtain ⟨k, hk⟩ : ∃ k : Nat, p.toNat = k + 1 := ⟨p.toNat - 1, by omega⟩
  unfold extract at hext
  rw [hk] at hext
  obtain ⟨s0, hs0, hstep⟩ := extract_upto_succ_some LONG_MAX _ p k s hext
  have hacc : accumulator (f32 (x - f32 (l : ℚ))) (k + 1) = 1 := by
    rw [← extract_upto_f LONG_MAX _ p (k + 1) s hext, h1]
  have hsmall : ∀ j : Nat, j < k → accumulator (f32 (x - f32 (l : ℚ))) (j + 1) < 1 := by
    intro j hj
    by_contra hc
    have := accumulator_ge_two _ (j + 1) (not_lt.mp hc) (k + 1) (by omega)
    rw [hacc] at this
    norm_num at this
  have hz0 := extract_upto_zeros_small LONG_MAX _ p k (by omega) hsmall s0 hs0
  obtain ⟨hsf, hsz⟩ := extract_step_some LONG_MAX p s0 s k hstep
  have hnot : ¬ f32 (s0.f * 10) < 1 := by
    rw [← hsf, h1]
    norm_num
  rw [if_neg hnot, hz0] at hsz
  have hround : round_up LONG_MAX x p s =
      some { x := x, f := 1, initial_zeros := (k : Int) } := by
    unfold round_up
    rw [h1, toLong_of_nonneg LONG_MAX 1 (by norm_num) (by simpa using hL), Option.map_some']
    have h0 : ¬ f32 (1 - f32 ((⌊(1 : ℚ)⌋ : Int) : ℚ)) ≥ 1 / 2 := by
      simp only [Int.floor_one, Int.cast_one, f32_one, sub_self, f32_zero]
      norm_num
    rw [if_neg h0, hsz]
  unfold putfloat_abs rounded
  rw [hs, Option.some_bind, hround, Option.some_bind]
  simp only [hl, Option.some_bind, put_zeros_natCast, gt_iff_lt, lt_irrefl, if_false,
    Option.map_some', hlx, putlong_natCast, hk, Nat.add_sub_cancel, List.append_nil]

/-! ## `check_results` -/

theorem check_results_loop_clean (computed expected : Nat → ℚ) (n : Nat) :
    ∀ i : Nat,
      (∀ j : Nat, i ≤ j → j < i + n → ¬ |f32 (computed j - expected j)| > tolerance) →
      check_results_loop computed expected n i 0 = 0 := by
  induction n with
  | zero =>
    intro i _
    rfl
  | succ n ih =>
    intro i hall
    rw [check_results_loop, if_neg (hall i le_rfl (by omega))]
    exact ih (i + 1) (fun j hij hjN => hall j (by omega) (by omega))

theorem check_results_loop_mismatch (computed expected : Nat → ℚ) (n : Nat) :
    ∀ i : Nat,
      (∃ j : Nat, i ≤ j ∧ j < i + n ∧ |f32 (computed j - expected j)| > tolerance) →
      check_results_loop computed expected n i 0 = 1 := by
  induction n with
  | zero =>
    intro i hex
    obtain ⟨j, hij, hjN, _⟩ := hex
    omega
  | succ n ih =>
    intro i hex
    rw [check_results_loop]
    by_cases hm : |f32 (computed i - expected i)| > tolerance
    · rw [if_pos hm]
    · rw [if_neg hm]
      obtain ⟨j, hij, hjN, hj⟩ := hex
      have hne : j ≠ i := by
        rintro rfl
        exact hm hj
      exact ih (i + 1) ⟨j, by omega, by omega, hj⟩

/-! ## Casts out of range, products beyond 24 bits -/

/-- `putfloat(0.5, 11)`: the eleventh product `5 * 10^10` has more than 24
significant bits and rounds to `49999998976`. Where `long` has 32 bits the casts
of the accumulator are out of range from the tenth pass on; where it has 64 bits
the digits printed after the point are those of `49999998976`. -/
theorem putfloat_half_eleven_places :
    accumulator (1 / 2) 10 = 5000000000 ∧
    accumulator (1 / 2) 11 = 49999998976 ∧
    putfloat LONG_MAX_32 (1 / 2) 11 = none ∧
    rounded LONG_MAX_64 (1 / 2) 11 =
      some { x := 1 / 2, f := 49999998976, initial_zeros := 0 } := by
  decide!

/-- A value beyond the range of `long` has no defined cast. -/
theorem toLong_out_of_range :
    toLong LONG_MAX_32 (f32 (3 * 10 ^ 9)) = none ∧
    toLong LONG_MAX_64 (f32 (10 ^ 19)) = none ∧
    putfloat LONG_MAX_64 (f32 (10 ^ 19)) 2 = none ∧
    toLong LONG_MAX_64 (f32 (3 * 10 ^ 9)) = some 3000000000 := by
  decide!

/-! ## Runs without rounding: the cases of `putfloat` -/

theorem exact_flag_false_of_zero_digit (x : ℚ) (p : Int) (hp : 1 ≤ p)
    (hz : ⌊Int.fract x * 10 ^ (0 + 1)⌋ % 10 = 0) :
    (extract_exact (Int.fract x) p).fraction_overflow ≠ true := by
  intro ht
  rw [extract_exact_eq_upto, extract_upto_exact_overflow _ (Int.fract_nonneg x)] at ht
  have := ht 0 (by omega)
  omega

theorem exact_no_carry_two (x : ℚ) (hlt : Int.fract x < 995 / 1000)
    (hr : 1 / 2 ≤ Int.fract (Int.fract x * 10 ^ 2)) :
    (extract_exact (Int.fract x) 2).fraction_overflow ≠ true := by
  intro ht
  have hf0 := Int.fract_nonneg x
  have hf1 := Int.fract_lt_one x
  rw [extract_exact_eq_upto, extract_upto_exact_overflow _ hf0, nine_digits_iff _ hf0 hf1] at ht
  have hP : (2 : Int).toNat = 2 := rfl
  rw [hP] at ht
  set F := Int.fract x * 10 ^ 2 with hF
  have hF99 : (99 : ℚ) ≤ F := by
    have h100 : (10 : ℚ) ^ 2 - 1 = 99 := by norm_num
    rw [h100] at ht
    exact ht
  have hFlt : F < 995 / 10 := by
    have : F = Int.fract x * 100 := by rw [hF]; norm_num
    rw [this]
    linarith
  have hfl : (99 : Int) ≤ ⌊F⌋ := Int.le_floor.mpr (by exact_mod_cast hF99)
  have hsplit := Int.floor_add_fract F
  have hcast : (99 : ℚ) ≤ (⌊F⌋ : ℚ) := by exact_mod_cast hfl
  linarith

theorem putfloat_abs_two_places (LONG_MAX : Int) (x : ℚ) (hx : 0 ≤ x)
    (hlt : Int.fract x < 995 / 1000) (hne : Int.fract x ≠ 1 / 100)
    (he : exact_run LONG_MAX x 2)
    (hup : 1 / 2 ≤ Int.fract (Int.fract x * 10 ^ 2) →
      f32 (Int.fract x * 10 ^ 2 + 1) = Int.fract x * 10 ^ 2 + 1) :
    putfloat_abs LONG_MAX x 2 =
      some (decimal ⌊x⌋₊ ++ ['.'] ++ padded 2 ⌊Int.fract x * 10 ^ 2 + 1 / 2⌋₊) := by
  have hP : (2 : Int).toNat = 2 := rfl
  rw [putfloat_abs_eq_exact LONG_MAX x 2 hx he
    (fun h _ => by rw [hP] at h ⊢; exact hup h)
    (fun h ht => by rw [hP] at h; exact absurd ht (exact_no_carry_two x hlt h))]
  exact putfloat_abs_exact_two_places x hx hlt hne

/-! ## Properties of the formatter -/

/-- C1. The run `putfloat(0.015625, 3)`: precision 3 (not 1), the digits
`0, 1, 5` are extracted, the remainder `0.625` rounds the accumulated value up
to `16` (neither 0 nor 1), and the leading zero is dropped although `15 → 16`
gains no digit. The output is `0.16`; the standard round-half-up rendering of
`0.015625` to three places is `0.016`. -/
theorem putfloat_sixty_fourth_drops_zero :
    f32 (1 / 64) = 1 / 64 ∧
    putfloat LONG_MAX_32 (1 / 64) 3 = some ['0', '.', '1', '6'] ∧
    putfloat LONG_MAX_64 (1 / 64) 3 = some ['0', '.', '1', '6'] ∧
    stdRender (1 / 64) 3 = ['0', '.', '0', '1', '6'] ∧
    rounded LONG_MAX_32 (1 / 64) 3 = some { x := 1 / 64, f := 133 / 8, initial_zeros := 0 } := by
  decide!

/-- C2. For a negative `x`, `putfloat x p` prints `-` and then exactly what
`putfloat (-x) p` prints (and has no defined result exactly when
`putfloat (-x) p` has none). -/
theorem putfloat_negative (LONG_MAX : Int) (x : ℚ) (p : Int) (hx : x < 0) :
    putfloat LONG_MAX x p = (putfloat LONG_MAX (-x) p).map (fun out => '-' :: out) := by
  rw [putfloat_of_neg LONG_MAX x hx p, putfloat_of_nonneg LONG_MAX (-x) (by linarith) p]

theorem putfloat_negative_witness :
    putfloat LONG_MAX_32 (-1 / 128) 2 =
      (putfloat LONG_MAX_32 (-(-1 / 128)) 2).map (fun out => '-' :: out) ∧
    putfloat LONG_MAX_32 (-1 / 128) 2 = some ['-', '0', '.', '0', '1'] :=
  ⟨putfloat_negative LONG_MAX_32 (-1 / 128) 2 (by norm_num), by decide!⟩

/-- C3. The run `putfloat(0.046875, 3)`: the first extracted digit is `0`, so
the round-up does not carry into the integer part, yet only two characters
follow the point: the output is `0.47`. -/
theorem putfloat_three_sixty_fourths_two_digits :
    f32 (3 / 64) = 3 / 64 ∧
    putfloat LONG_MAX_32 (3 / 64) 3 = some ['0', '.', '4', '7'] ∧
    putfloat LONG_MAX_64 (3 / 64) 3 = some ['0', '.', '4', '7'] ∧
    ⌊Int.fract (3 / 64 : ℚ) * 10 ^ (0 + 1)⌋ % 10 = 0 ∧
    (extracted LONG_MAX_32 (3 / 64) 3).map (fun s => s.fraction_overflow) = some false := by
  decide!

/-- C4. The run `putfloat(0.0625, 3)`: the output `0.63` reads back as `0.63`,
which is farther than `0.5 * 10^-3` from `0.0625`; the precision is 3 and the
rounded accumulated value is `63`. -/
theorem putfloat_sixteenth_reads_back_wrong :
    f32 (1 / 16) = 1 / 16 ∧
    putfloat LONG_MAX_32 (1 / 16) 3 = some ['0', '.', '6', '3'] ∧
    putfloat LONG_MAX_64 (1 / 16) 3 = some ['0', '.', '6', '3'] ∧
    readDecimal ['0', '.', '6', '3'] = 63 / 100 ∧
    ¬ (|(63 / 100 : ℚ) - 1 / 16| ≤ 1 / 2 * (1 / 10) ^ 3) ∧
    (rounded LONG_MAX_32 (1 / 16) 3).map (fun r => trunc r.f) = some 63 := by
  decide!

/-- C5. The run `putfloat(9.999, 2)`, on the binary32 value of `9.999` (and on
the decimal itself): it prints `10.0`; after the carry into the integer part
only `p - 1 = 1` zero follows the point. -/
theorem putfloat_carry_prints_one_zero :
    putfloat LONG_MAX_32 (f32 (9999 / 1000)) 2 = some ['1', '0', '.', '0'] ∧
    putfloat LONG_MAX_64 (f32 (9999 / 1000)) 2 = some ['1', '0', '.', '0'] ∧
    putfloat LONG_MAX_32 (9999 / 1000) 2 = some ['1', '0', '.', '0'] ∧
    stdRender (f32 (9999 / 1000)) 2 = ['1', '0', '.', '0', '0'] ∧
    stdRender (9999 / 1000) 2 = ['1', '0', '.', '0', '0'] := by
  decide!

/-- C8. For `i ≥ 0`, `putlong i` prints the standard base-10 numeral of `i`,
most significant digit first: only digit characters, the single character `0`
when `i = 0`, no leading `0` otherwise, and the digits read back as `i`. -/
theorem putlong_prints_decimal (i : Int) (h : 0 ≤ i) :
    putlong i = decimal i.toNat ∧
    (i = 0 → putlong i = ['0']) ∧
    (i ≠ 0 → (putlong i).head? ≠ some '0') ∧
    (∀ c ∈ putlong i, c.isDigit = true) ∧
    (readNat (putlong i) : Int) = i := by
  have heq := putlong_of_nonneg i h
  refine ⟨heq, ?_, ?_, ?_, ?_⟩
  · intro h0
    subst h0
    decide!
  · intro hne
    rw [heq]
    exact decimal_head_ne_zero _ (by omega)
  · rw [heq]
    exact decimal_isDigit _
  · rw [heq, readNat_decimal]
    omega

theorem putlong_prints_decimal_witness :
    putlong 120 = ['1', '2', '0'] ∧ (readNat (putlong 120) : Int) = 120 :=
  ⟨(putlong_prints_decimal 120 (by norm_num)).1.trans (by decide!),
   (putlong_prints_decimal 120 (by norm_num)).2.2.2.2⟩

/-- C10. The run `putfloat(0.0546875, 3)`: after extraction the accumulated value
is `54` with one leading zero recorded; the round-up makes it `55`, which gains
no digit, and still decrements the leading-zero count to 0 (the test is
`f >= 10`). The output is `0.55`. -/
theorem round_up_decrements_without_new_digit :
    f32 (7 / 128) = 7 / 128 ∧
    extracted LONG_MAX_32 (7 / 128) 3 =
      some { f := 875 / 16, initial_zeros := 1, fraction_overflow := false } ∧
    rounded LONG_MAX_32 (7 / 128) 3 =
      some { x := 7 / 128, f := 891 / 16, initial_zeros := 0 } ∧
    toLong LONG_MAX_32 (875 / 16) = some 54 ∧ toLong LONG_MAX_32 (891 / 16) = some 55 ∧
    putfloat LONG_MAX_32 (7 / 128) 3 = some ['0', '.', '5', '5'] ∧
    putfloat LONG_MAX_64 (7 / 128) 3 = some ['0', '.', '5', '5'] := by
  decide!

/-- C11, as stated, fails on `putfloat(0.9f, 1)`: the first fractional digit of
the binary32 value `0.89999998` is 8 and `frac x < 1 - 10^-1`, so the claim has
the flag cleared; the product `f * 10` rounds to exactly `9` and the flag is
still set after the loop. -/
theorem fraction_overflow_follows_rounded_digits :
    0 ≤ f32 (9 / 10) ∧
    ⌊Int.fract (f32 (9 / 10)) * 10 ^ (0 + 1)⌋ % 10 = 8 ∧
    ¬ (1 - 1 / 10 ^ (1 : Int).toNat ≤ Int.fract (f32 (9 / 10))) ∧
    extracted LONG_MAX_32 (f32 (9 / 10)) 1 =
      some { f := 9, initial_zeros := 0, fraction_overflow := true } := by
  decide!

/-- C11, amended. For `x ≥ 0`, whenever the extraction loop ends,
`fraction_overflow` is still set exactly when each digit `(long)f % 10` taken
from the binary32 accumulator is 9; with `p = 0` it is set. When the extraction
rounds nowhere and casts in range (`exact_extraction`), the loop ends and these
digits are the first `p` fractional digits of `x`: the flag is still set exactly
when each of them is 9, equivalently when `frac x ≥ 1 - 10^(-p)`. -/
theorem fraction_overflow_iff_all_nines (LONG_MAX : Int) (x : ℚ) (p : Int) (hx : 0 ≤ x) :
    (∀ s, extracted LONG_MAX x p = some s →
      (s.fraction_overflow = true ↔
        ∀ j : Nat, (j : Int) < p →
          ¬ Int.tmod (trunc (accumulator (f32 (x - f32 (⌊x⌋ : ℚ))) (j + 1))) 10 < 9) ∧
      (p = 0 → s.fraction_overflow = true)) ∧
    (exact_extraction LONG_MAX x p →
      ∃ s, extracted LONG_MAX x p = some s ∧
        (s.fraction_overflow = true ↔
          ∀ j : Nat, (j : Int) < p → ⌊Int.fract x * 10 ^ (j + 1)⌋ % 10 = 9) ∧
        (s.fraction_overflow = true ↔ 1 - 1 / 10 ^ p.toNat ≤ Int.fract x)) := by
  constructor
  · intro s hs
    unfold extracted at hs
    obtain ⟨l, hl, hext⟩ := Option.bind_eq_some.mp hs
    have hlx : l = ⌊x⌋ := by
      rw [toLong_eq_some LONG_MAX x l hl, trunc_of_nonneg x hx]
    subst hlx
    have h := extract_upto_overflow LONG_MAX _ p p.toNat s hext
    refine ⟨?_, ?_⟩
    · rw [h]
      constructor
      · intro hall j hj
        exact hall j (by omega)
      · intro hall j hj
        exact hall j (by omega)
    · intro h0
      rw [h]
      intro j hj
      omega
  · intro he
    refine ⟨extract_exact (Int.fract x) p, extracted_eq_exact LONG_MAX x p hx he, ?_, ?_⟩
    · rw [extract_exact_eq_upto, extract_upto_exact_overflow _ (Int.fract_nonneg x)]
      constructor
      · intro h j hj
        exact h j (by omega)
      · intro h j hj
        exact h j (by omega)
    · have h := extract_exact_overflow_iff_ge x hx p
      rw [sub_trunc_eq_fract x hx] at h
      exact h

theorem fraction_overflow_iff_all_nines_witness :
    (∃ s, extracted LONG_MAX_32 (511 / 512) 2 = some s ∧ s.fraction_overflow = true) ∧
    extracted LONG_MAX_32 (63 / 64) 2 =
      some { f := 1575 / 16, initial_zeros := 0, fraction_overflow := false } ∧
    (∀ s, extracted LONG_MAX_32 (1 / 4) 0 = some s → s.fraction_overflow = true) :=
  ⟨((fraction_overflow_iff_all_nines LONG_MAX_32 (511 / 512) 2 (by norm_num)).2
      (by decide!)).imp (fun _ h => ⟨h.1, h.2.2.mpr (by decide!)⟩),
   by decide!,
   fun s hs => ((fraction_overflow_iff_all_nines LONG_MAX_32 (1 / 4) 0 (by norm_num)).1 s hs).2
      rfl⟩

/-- C12, as stated, fails on its own example: `putfloat(0.01f, 2)` prints `0.02`,
not `0.0`. For the binary32 value `100 * frac x` is not 1; the accumulator after
the loop is `0.99999994`, the remainder rounds up and `f + 1` rounds to `2`. -/
theorem putfloat_hundredth_prints_two :
    10 ^ (2 : Int).toNat * Int.fract (f32 (1 / 100)) ≠ 1 ∧
    extracted LONG_MAX_32 (f32 (1 / 100)) 2 =
      some { f := 16777215 / 16777216, initial_zeros := 1, fraction_overflow := false } ∧
    rounded LONG_MAX_32 (f32 (1 / 100)) 2 =
      some { x := f32 (1 / 100), f := 2, initial_zeros := 1 } ∧
    putfloat LONG_MAX_32 (f32 (1 / 100)) 2 = some ['0', '.', '0', '2'] ∧
    putfloat LONG_MAX_64 (f32 (1 / 100)) 2 = some ['0', '.', '0', '2'] := by
  decide!

/-- C12, amended. For `x ≥ 0` and `p ≥ 1`, when the binary32 accumulator `f`
after the extraction loop is exactly 1, `putfloat x p` prints the numeral of
`⌊x⌋`, a point, and `p - 1` zeros, and nothing after them: the digit `1` is not
printed. -/
theorem putfloat_suppresses_exact_one (LONG_MAX : Int) (x : ℚ) (p : Int) (hx : 0 ≤ x)
    (hp : 1 ≤ p) (hL : 1 ≤ LONG_MAX)
    (h1 : (extracted LONG_MAX x p).map (fun s => s.f) = some 1) :
    putfloat LONG_MAX x p =
      some (decimal ⌊x⌋₊ ++ ['.'] ++ List.replicate (p.toNat - 1) '0') := by
  obtain ⟨s, hs, hf⟩ := Option.map_eq_some'.mp h1
  rw [putfloat_of_nonneg LONG_MAX x hx p]
  exact putfloat_abs_of_accumulator_one LONG_MAX x p hx hp hL s hs hf

theorem putfloat_suppresses_exact_one_witness :
    putfloat LONG_MAX_32 (f32 (1 / 10)) 1 = some ['0', '.'] :=
  (putfloat_suppresses_exact_one LONG_MAX_32 (f32 (1 / 10)) 1 (by decide!) (by norm_num)
    (by decide!) (by decide!)).trans (by decide!)

/-- C14. The run `putfloat(0.5, 0)`: no digit is extracted, `fraction_overflow`
is still set, the remainder `0.5` rounds up, and the carry branch sets
`initial_zeros = p - 1 = -1`. The zero loop is entered with a negative counter
and has no defined result. -/
theorem putfloat_half_enters_zero_loop_negative :
    f32 (1 / 2) = 1 / 2 ∧
    (extracted LONG_MAX_32 (1 / 2) 0).map (fun s => s.fraction_overflow) = some true ∧
    (rounded LONG_MAX_32 (1 / 2) 0).map (fun r => r.initial_zeros) = some (-1) ∧
    (rounded LONG_MAX_32 (1 / 2) 0).bind (fun r => put_zeros r.initial_zeros) = none ∧
    putfloat LONG_MAX_32 (1 / 2) 0 = none ∧
    putfloat LONG_MAX_64 (1 / 2) 0 = none := by
  decide!

/-- C15, as stated, fails on `computed[0] = 0.0001f`, `expected[0] = -3e-12f`,
`N = 1`: the difference of the two values exceeds `0.0001`, so the claim has
1 returned; the binary32 difference rounds to `0.0001f`, which is not greater
than the tolerance `0.0001f`, and `check_results` returns 0. -/
theorem check_results_misses_rounded_difference :
    (∃ i : Nat, (i : Int) < 1 ∧
      |(fun _ : Nat => f32 (1 / 10000)) i - (fun _ : Nat => f32 (-3 / 10 ^ 12)) i| >
        1 / 10000) ∧
    f32 (f32 (1 / 10000) - f32 (-3 / 10 ^ 12)) = f32 (1 / 10000) ∧
    check_results (fun _ => f32 (1 / 10000)) (fun _ => f32 (-3 / 10 ^ 12)) 1 = 0 :=
  ⟨⟨0, by norm_num, by decide!⟩, by decide!, by decide!⟩

/-- C15, amended. `check_results` returns 1 when some index `i` with `0 ≤ i < N`
has the binary32 difference `computed[i] - expected[i]` greater in magnitude
than the binary32 tolerance `0.0001f = 13743895 / 2^37`, returns 0 when there
is none, and never returns more than 1. -/
theorem check_results_flags_mismatch (computed expected : Nat → ℚ) (N : Int) :
    ((∃ i : Nat, (i : Int) < N ∧ |f32 (computed i - expected i)| > tolerance) →
      check_results computed expected N = 1) ∧
    ((¬ ∃ i : Nat, (i : Int) < N ∧ |f32 (computed i - expected i)| > tolerance) →
      check_results computed expected N = 0) ∧
    check_results computed expected N ≤ 1 ∧
    tolerance = 13743895 / 137438953472 := by
  have hyes : (∃ i : Nat, (i : Int) < N ∧ |f32 (computed i - expected i)| > tolerance) →
      check_results computed expected N = 1 := by
    rintro ⟨i, hi, hm⟩
    exact check_results_loop_mismatch computed expected N.toNat 0 ⟨i, Nat.zero_le i, by omega, hm⟩
  have hno : (¬ ∃ i : Nat, (i : Int) < N ∧ |f32 (computed i - expected i)| > tolerance) →
      check_results computed expected N = 0 := by
    intro h
    exact check_results_loop_clean computed expected N.toNat 0
      (fun j _ hj hm => h ⟨j, by omega, hm⟩)
  refine ⟨hyes, hno, ?_, by decide!⟩
  by_cases h : ∃ i : Nat, (i : Int) < N ∧ |f32 (computed i - expected i)| > tolerance
  · rw [hyes h]
  · rw [hno h]
    exact Nat.zero_le 1

theorem check_results_flags_mismatch_witness :
    check_results (fun _ => 1) (fun i => if i = 2 then 2 else 1) 4 = 1 ∧
    check_results (fun _ => 1) (fun i => if i = 2 then 2 else 1) 2 = 0 :=
  ⟨(check_results_flags_mismatch (fun _ => 1) (fun i => if i = 2 then 2 else 1) 4).1
      ⟨2, by norm_num, by decide!⟩,
   (check_results_flags_mismatch (fun _ => 1) (fun i => if i = 2 then 2 else 1) 2).2.1
      (by
        rintro ⟨i, hi, hm⟩
        have hne : i ≠ 2 := by omega
        rw [if_neg hne, sub_self, f32_zero, abs_zero] at hm
        exact absurd hm (by decide!))⟩

/-- C16. For `0 ≤ i ≤ 2^63 - 1` the loop of `putlong` stores between 1 and 19
characters, and `putlong` prints as many: every index `j < len` written or read
in `int_str` is below 20. -/
theorem putlong_buffer_in_bounds (i : Int) (h0 : 0 ≤ i) (h : i ≤ 2 ^ 63 - 1) :
    1 ≤ (putlong_loop i []).length ∧
    (putlong_loop i []).length ≤ 19 ∧
    (putlong i).length = (putlong_loop i []).length ∧
    ∀ j : Nat, j < (putlong_loop i []).length → j < 20 := by
  obtain ⟨n, rfl⟩ := Int.eq_ofNat_of_zero_le h0
  have hn : n < 10 ^ 19 := by
    have : (n : Int) < 10 ^ 19 := lt_of_le_of_lt h (by norm_num)
    exact_mod_cast this
  have hb := putlong_loop_length n 19 (by norm_num) hn
  refine ⟨hb.1, hb.2, ?_, ?_⟩
  · unfold putlong
    exact List.length_reverse _
  · intro j hj
    omega

theorem putlong_buffer_in_bounds_witness :
    (putlong_loop (2 ^ 63 - 1) []).length ≤ 19 ∧ (putlong_loop 120 []).length = 3 :=
  ⟨(putlong_buffer_in_bounds (2 ^ 63 - 1) (by norm_num) (by norm_num)).2.1, by decide!⟩


end Matfloat
